import Mathlib

/-!
Shallow embedding of the matching algorithms of the ORDER-MATCHING-ENGINE
repository (src/src/algorithms/{fifo,pro_rata,hybrid}.rs, order model from
src/src/engine/order.rs), together with proofs settling the frozen claims.

Modelling conventions:
* `u64` identifiers and quantities become `Nat` (no claim concerns 64-bit
  wrap-around, and all arithmetic performed on them by the matchers is
  subtraction/min/Nat-division-scale arithmetic far below `2^64` overflow).
* `f64` prices become `ℚ`.  The matchers only ever *compare* prices
  (`==`, `<`, `<=`, `>=`) and copy them into trades, and IEEE comparison on
  in-range values agrees with the exact order, so this is faithful on every
  code path except the two places that do real arithmetic: the pro-rata
  proportional allocation `((r as f64 / T as f64) * Q as f64).floor()` and the
  hybrid split `(q_total as f64 * fifo_percentage).floor()`.  Those are
  modelled as the exact rational computations (`Nat.floor` over `ℚ`), i.e.
  ignoring f64 rounding error, matching the spec's exact numeric contract.
* `Trade.rank` and timestamps are omitted: no claim below mentions them and
  they do not influence control flow.
* The `VecDeque` books become `List`s (front = head).
-/

namespace OME

/-- Model of `Side` from src/src/engine/order.rs. -/
inductive Side where
  | buy : Side
  | sell : Side
deriving DecidableEq

/-- Model of `Order` from src/src/engine/order.rs (timestamp omitted, see header). -/
structure Order where
  id : Nat
  side : Side
  price : ℚ
  quantity : Nat
deriving DecidableEq

/-- Model of `Trade` from src/src/algorithms/fifo.rs (rank and timestamp omitted). -/
structure Trade where
  buyId : Nat
  sellId : Nat
  price : ℚ
  quantity : Nat
deriving DecidableEq

/-- Model of `AlgorithmError` from src/src/algorithms/errors.rs. -/
inductive AlgorithmError where
  | invalidOrder (msg : String) : AlgorithmError
  | bookError (msg : String) : AlgorithmError
  | internalFailure : AlgorithmError
deriving DecidableEq

/-- Total resting quantity of a queue (used to state conservation). -/
def totalQty (l : List Order) : Nat := (l.map Order.quantity).sum

/-- Total traded quantity of a trade list. -/
def tradesQty (l : List Trade) : Nat := (l.map Trade.quantity).sum

/-!
## The head-scanning match loop

`matchLoop mk accept aggQty queue` is the common loop of
`FifoMatcher::match_buy_order` / `match_sell_order`
(src/src/algorithms/fifo.rs lines 83-139) and of
`HybridMatcher::apply_fifo_matching_buy` / `_sell`
(src/src/algorithms/hybrid.rs lines 137-192): while the aggressor has
remaining quantity and the front resting order satisfies the price test
`accept`, trade `min` of the two quantities against the front order, pop it,
and push it back at the front iff it retains quantity.  The four call sites
differ only in the price test and in how the `Trade` is built, which are the
parameters `accept` and `mk` (`mk` receives the resting order and the trade
quantity; the aggressor's constant fields are captured at the call site).

In the partial-fill branch (`0 < o.quantity - m`) necessarily
`m = min aggQty o.quantity = aggQty`, so the Rust loop's next iteration finds
the aggressor empty and exits; the branch therefore returns directly, which
keeps the recursion structural on the queue.
-/
def matchLoop (mk : Order → Nat → Trade) (accept : ℚ → Bool) :
    Nat → List Order → List Trade × Nat × List Order
  | aggQty, [] => ([], aggQty, [])
  | aggQty, o :: rest =>
    if aggQty = 0 then ([], aggQty, o :: rest)
    else if accept o.price then
      let m := min aggQty o.quantity
      if 0 < o.quantity - m then
        ([mk o m], aggQty - m, { o with quantity := o.quantity - m } :: rest)
      else
        let r := matchLoop mk accept (aggQty - m) rest
        (mk o m :: r.1, r.2.1, r.2.2)
    else ([], aggQty, o :: rest)

/-!
## FIFO matcher (src/src/algorithms/fifo.rs)
-/

/-- The two queues of `FifoMatcher`. -/
structure FifoBook where
  bids : List Order
  asks : List Order
deriving DecidableEq

/-- Model of `FifoMatcher::match_order` including `validate_order`.  On a Buy the
trade price is the resting ask's price; on a Sell, `execute_trade` uses
`sell_order.price`, i.e. the *aggressor's* price. -/
def fifoMatchOrder (book : FifoBook) (incoming : Order) :
    Except AlgorithmError (List Trade) × FifoBook :=
  if incoming.quantity = 0 then
    (.error (.invalidOrder "Order quantity cannot be zero"), book)
  else if incoming.price ≤ 0 then
    (.error (.invalidOrder "Order price must be positive"), book)
  else
    match incoming.side with
    | .buy =>
      let r := matchLoop (fun ask q => ⟨incoming.id, ask.id, ask.price, q⟩)
        (fun p => decide (p ≤ incoming.price)) incoming.quantity book.asks
      (.ok r.1,
        { bids :=
            if r.2.1 ≠ 0 then book.bids ++ [{ incoming with quantity := r.2.1 }]
            else book.bids
          asks := r.2.2 })
    | .sell =>
      let r := matchLoop (fun bid q => ⟨bid.id, incoming.id, incoming.price, q⟩)
        (fun p => decide (incoming.price ≤ p)) incoming.quantity book.bids
      (.ok r.1,
        { bids := r.2.2
          asks :=
            if r.2.1 ≠ 0 then book.asks ++ [{ incoming with quantity := r.2.1 }]
            else book.asks })

/-- Folding a sequence of submissions into a `FifoMatcher` starting from the
empty book (trades discarded), as the shard loop does. -/
def fifoRun (orders : List Order) : FifoBook :=
  orders.foldl (fun b o => (fifoMatchOrder b o).2) ⟨[], []⟩

/-!
## Pro-rata allocation core
(src/src/algorithms/pro_rata.rs lines 44-106 and 124-186, and
src/src/algorithms/hybrid.rs lines 194-244 and 246-296)
-/

/-- The "find all orders at the best price level" scan: iterate from the
front, keep orders whose price equals the target, stop at the first mismatch
(`else break`). -/
def collectLevel (target : ℚ) (queue : List Order) : List Order :=
  queue.takeWhile (fun o => decide (o.price = target))

/-- One initial proportional allocation:
`((resting_qty as f64 / total as f64) * available as f64).floor() as u64`,
over exact rational arithmetic. -/
def allocInit (T Q r : Nat) : Nat := ⌊((r : ℚ) / (T : ℚ)) * (Q : ℚ)⌋₊

/-- The remainder loop: add one unit to each of the first `rem` allocations
(`while remainder > 0 && allocation_idx < allocations.len()`). -/
def distributeRemainder : List Nat → Nat → List Nat
  | [], _ => []
  | a :: rest, 0 => a :: rest
  | a :: rest, rem + 1 => (a + 1) :: distributeRemainder rest rem

/-- Full allocation list for eligible resting sizes `rs` and aggressor
quantity `qty`: initial floors, then remainder distribution in collection
order. -/
def proRataAllocs (qty : Nat) (rs : List Nat) : List Nat :=
  let T := rs.sum
  let Q := min qty T
  let inits := rs.map (allocInit T Q)
  distributeRemainder inits (Q - inits.sum)

/-- The trades produced by the execution loop, in *ascending* queue-index
order, one per nonzero allocation (`if allocated_qty > 0`). -/
def levelTrades (mk : Order → Nat → Trade) : List Order → List Nat → List Trade
  | _, [] => []
  | [], _ => []
  | o :: os, a :: rest =>
    if 0 < a then mk o a :: levelTrades mk os rest
    else levelTrades mk os rest

/-- The queue after the execution loop: position `i` of the queue is reduced
by allocation `i`; an order with a nonzero allocation is removed and
re-inserted at its position iff it retains quantity, an order with a zero
allocation is untouched. -/
def applyAllocs : List Order → List Nat → List Order
  | queue, [] => queue
  | [], _ => []
  | o :: os, a :: rest =>
    if 0 < a then
      if 0 < o.quantity - a then
        { o with quantity := o.quantity - a } :: applyAllocs os rest
      else applyAllocs os rest
    else o :: applyAllocs os rest

/-- The shared "collect / allocate / execute" phase.  Returns
(trades, remaining aggressor quantity, updated opposite queue).

The Rust execution loop first does
`allocations.sort_by(|a, b| b.0.cmp(&a.0))`: the allocation entries carry the
queue indices `0, 1, ..., k-1` in ascending order (they come from an
`enumerate()` scan that stops at the first price mismatch), so the sort
yields exactly the reversed list, and the loop then removes / re-inserts at
strictly descending indices — which edits each position independently of the
others.  Hence the trades are emitted in reverse collection order
(`(levelTrades ...).reverse`) and the queue update is positional
(`applyAllocs`).  The aggressor quantity is decremented by every executed
allocation, i.e. by `allocs.sum`. -/
def proRataExec (mk : Order → Nat → Trade) (qty : Nat) (target : ℚ)
    (queue : List Order) : List Trade × Nat × List Order :=
  let level := collectLevel target queue
  let T := totalQty level
  if T = 0 then ([], qty, queue)
  else
    let allocs := proRataAllocs qty (level.map Order.quantity)
    ((levelTrades mk level allocs).reverse, qty - allocs.sum,
      applyAllocs queue allocs)

/-!
## ProRata matcher (src/src/algorithms/pro_rata.rs)
-/

/-- The two queues of `ProRataMatcher`. -/
structure ProRataBook where
  bids : List Order
  asks : List Order
deriving DecidableEq

/-- Model of `ProRataMatcher::match_buy_order`.  When the book cannot match (no asks,
no crossing, or zero total at the level) the incoming order rests with its
full quantity; `proRataExec` returns the full quantity as remaining in the
zero-total case, so the single rest-if-positive step below covers every
branch of the Rust function (`match_buy_order` is only entered with
`quantity > 0`, see `proRataMatchOrder`). -/
def proRataMatchBuy (book : ProRataBook) (incoming : Order) :
    List Trade × ProRataBook :=
  match book.asks with
  | [] => ([], { book with bids := book.bids ++ [incoming] })
  | front :: _ =>
    if incoming.price < front.price then
      ([], { book with bids := book.bids ++ [incoming] })
    else
      let r := proRataExec (fun ask a => ⟨incoming.id, ask.id, ask.price, a⟩)
        incoming.quantity front.price book.asks
      (r.1,
        { bids :=
            if 0 < r.2.1 then book.bids ++ [{ incoming with quantity := r.2.1 }]
            else book.bids
          asks := r.2.2 })

/-- Model of `ProRataMatcher::match_sell_order` (mirror image; the trade is
`Trade::new(bid.id, incoming.id, bid.price, a)`). -/
def proRataMatchSell (book : ProRataBook) (incoming : Order) :
    List Trade × ProRataBook :=
  match book.bids with
  | [] => ([], { book with asks := book.asks ++ [incoming] })
  | front :: _ =>
    if front.price < incoming.price then
      ([], { book with asks := book.asks ++ [incoming] })
    else
      let r := proRataExec (fun bid a => ⟨bid.id, incoming.id, bid.price, a⟩)
        incoming.quantity front.price book.bids
      (r.1,
        { bids := r.2.2
          asks :=
            if 0 < r.2.1 then book.asks ++ [{ incoming with quantity := r.2.1 }]
            else book.asks })

/-- Model of `ProRataMatcher::match_order`: silent rejection of invalid orders, then
dispatch by side. -/
def proRataMatchOrder (book : ProRataBook) (incoming : Order) :
    List Trade × ProRataBook :=
  if incoming.quantity = 0 ∨ incoming.price ≤ 0 then ([], book)
  else
    match incoming.side with
    | .buy => proRataMatchBuy book incoming
    | .sell => proRataMatchSell book incoming

/-!
## Hybrid matcher (src/src/algorithms/hybrid.rs)
-/

/-- Model of the `HybridMatcher` state: the two queues plus `config.fifo_percentage`. -/
structure HybridBook where
  bids : List Order
  asks : List Order
  fifoPct : ℚ
deriving DecidableEq

/-- The FIFO/pro-rata split
`(total_quantity as f64 * self.config.fifo_percentage).floor() as u64`,
over exact rational arithmetic (`as u64` on a negative float yields 0, as
does `Nat.floor` on a negative rational). -/
def hybridFifoQty (pct : ℚ) (qTotal : Nat) : Nat := ⌊(qTotal : ℚ) * pct⌋₊

/-- Model of `HybridMatcher::match_buy_order`.  The FIFO phase runs only
`if fifo_quantity > 0` and the pro-rata phase only
`if pro_rata_quantity > 0 && !asks.is_empty()`; both guards are no-ops of the
phase functions (`matchLoop` with quantity 0 returns immediately, and
`proRataExec` with quantity 0 allocates all zeros), so they are modelled by
always running the phases. -/
def hybridMatchBuy (book : HybridBook) (incoming : Order) :
    List Trade × HybridBook :=
  match book.asks with
  | [] => ([], { book with bids := book.bids ++ [incoming] })
  | front :: _ =>
    if incoming.price < front.price then
      ([], { book with bids := book.bids ++ [incoming] })
    else
      let target := front.price
      let qTotal := incoming.quantity
      let qFifo := hybridFifoQty book.fifoPct qTotal
      let f := matchLoop (fun ask q => ⟨incoming.id, ask.id, ask.price, q⟩)
        (fun p => decide (p = target)) qFifo book.asks
      let afterFifo := qTotal - (qFifo - f.2.1)
      let g := proRataExec (fun ask a => ⟨incoming.id, ask.id, ask.price, a⟩)
        (qTotal - qFifo) target f.2.2
      let remaining := afterFifo - ((qTotal - qFifo) - g.2.1)
      (f.1 ++ g.1,
        { book with
          bids :=
            if 0 < remaining then
              book.bids ++ [{ incoming with quantity := remaining }]
            else book.bids
          asks := g.2.2 })

/-- Model of `HybridMatcher::match_sell_order` (mirror image; both hybrid phases build
the trade with the *resting bid's* price). -/
def hybridMatchSell (book : HybridBook) (incoming : Order) :
    List Trade × HybridBook :=
  match book.bids with
  | [] => ([], { book with asks := book.asks ++ [incoming] })
  | front :: _ =>
    if front.price < incoming.price then
      ([], { book with asks := book.asks ++ [incoming] })
    else
      let target := front.price
      let qTotal := incoming.quantity
      let qFifo := hybridFifoQty book.fifoPct qTotal
      let f := matchLoop (fun bid q => ⟨bid.id, incoming.id, bid.price, q⟩)
        (fun p => decide (p = target)) qFifo book.bids
      let afterFifo := qTotal - (qFifo - f.2.1)
      let g := proRataExec (fun bid a => ⟨bid.id, incoming.id, bid.price, a⟩)
        (qTotal - qFifo) target f.2.2
      let remaining := afterFifo - ((qTotal - qFifo) - g.2.1)
      (f.1 ++ g.1,
        { book with
          bids := g.2.2
          asks :=
            if 0 < remaining then
              book.asks ++ [{ incoming with quantity := remaining }]
            else book.asks })

/-- Model of `HybridMatcher::match_order`: silent rejection of invalid orders, then
the `fifo_percentage` range guard, then dispatch by side. -/
def hybridMatchOrder (book : HybridBook) (incoming : Order) :
    List Trade × HybridBook :=
  if incoming.quantity = 0 ∨ incoming.price ≤ 0 then ([], book)
  else if book.fifoPct < 0 ∨ 1 < book.fifoPct then ([], book)
  else
    match incoming.side with
    | .buy => hybridMatchBuy book incoming
    | .sell => hybridMatchSell book incoming

/-!
## Basic lemmas
-/

/-- Over exact arithmetic the initial allocation is integer division:
`⌊(r/T)·Q⌋ = r·Q/T` (both sides are 0 when `T = 0`). -/
theorem allocInit_eq_div (T Q r : Nat) : allocInit T Q r = r * Q / T := by
  unfold allocInit
  rw [div_mul_eq_mul_div, ← Nat.cast_mul, Nat.floor_div_eq_div]

/-- Conservation for the head-scanning loop: the emitted trade quantities sum
to the consumed aggressor quantity, which is also the total decrease of the
queue. -/
theorem matchLoop_conserve (mk : Order → Nat → Trade) (accept : ℚ → Bool)
    (hmk : ∀ o a, (mk o a).quantity = a) :
    ∀ (queue : List Order) (q : Nat),
      tradesQty (matchLoop mk accept q queue).1 =
          q - (matchLoop mk accept q queue).2.1 ∧
        (matchLoop mk accept q queue).2.1 ≤ q ∧
        totalQty queue =
          totalQty (matchLoop mk accept q queue).2.2 +
            (q - (matchLoop mk accept q queue).2.1) := by
  intro queue
  induction queue with
  | nil =>
    intro q
    simp [matchLoop, tradesQty, totalQty]
  | cons o rest ih =>
    intro q
    by_cases hq : q = 0
    · simp [matchLoop, hq, tradesQty, totalQty]
    · by_cases hacc : accept o.price = true
      · by_cases hpar : 0 < o.quantity - min q o.quantity
        · have hm1 : min q o.quantity ≤ q := Nat.min_le_left _ _
          have hm2 : min q o.quantity ≤ o.quantity := Nat.min_le_right _ _
          simp only [matchLoop, if_neg hq, if_pos hacc, if_pos hpar, tradesQty,
            totalQty, List.map_cons, List.map_nil, List.sum_cons, List.sum_nil,
            hmk]
          omega
        · obtain ⟨ih1, ih2, ih3⟩ := ih (q - min q o.quantity)
          have hm1 : min q o.quantity ≤ q := Nat.min_le_left _ _
          have hm2 : min q o.quantity ≤ o.quantity := Nat.min_le_right _ _
          simp only [matchLoop, if_neg hq, if_pos hacc, if_neg hpar, tradesQty,
            totalQty, List.map_cons, List.sum_cons, hmk] at ih1 ih2 ih3 ⊢
          omega
      · simp [matchLoop, if_neg hq, if_neg hacc, tradesQty, totalQty]

/-- The head-scanning loop preserves positivity of resting quantities. -/
theorem matchLoop_pos (mk : Order → Nat → Trade) (accept : ℚ → Bool) :
    ∀ (queue : List Order) (q : Nat), (∀ o ∈ queue, 0 < o.quantity) →
      ∀ o ∈ (matchLoop mk accept q queue).2.2, 0 < o.quantity := by
  intro queue
  induction queue with
  | nil => intro q _; simp [matchLoop]
  | cons o rest ih =>
    intro q hpos
    by_cases hq : q = 0
    · simpa [matchLoop, hq] using hpos
    · by_cases hacc : accept o.price = true
      · by_cases hpar : 0 < o.quantity - min q o.quantity
        · intro x hx
          simp only [matchLoop, if_neg hq, if_pos hacc, if_pos hpar] at hx
          rcases List.mem_cons.1 hx with rfl | h
          · exact hpar
          · exact hpos x (List.mem_cons_of_mem _ h)
        · intro x hx
          simp only [matchLoop, if_neg hq, if_pos hacc, if_neg hpar] at hx
          exact ih _ (fun y hy => hpos y (List.mem_cons_of_mem _ hy)) x hx
      · simpa [matchLoop, if_neg hq, if_neg hacc] using hpos

/-- Every trade the loop emits satisfies the price test (the trade price is
the resting order's price whenever `mk` copies it). -/
theorem matchLoop_price (mk : Order → Nat → Trade) (accept : ℚ → Bool)
    (hmkp : ∀ o a, (mk o a).price = o.price) :
    ∀ (queue : List Order) (q : Nat),
      ∀ t ∈ (matchLoop mk accept q queue).1, accept t.price = true := by
  intro queue
  induction queue with
  | nil => intro q; simp [matchLoop]
  | cons o rest ih =>
    intro q
    by_cases hq : q = 0
    · simp [matchLoop, hq]
    · by_cases hacc : accept o.price = true
      · by_cases hpar : 0 < o.quantity - min q o.quantity
        · intro t ht
          simp only [matchLoop, if_neg hq, if_pos hacc, if_pos hpar] at ht
          rcases List.mem_singleton.1 ht with rfl
          rw [hmkp]; exact hacc
        · intro t ht
          simp only [matchLoop, if_neg hq, if_pos hacc, if_neg hpar] at ht
          rcases List.mem_cons.1 ht with rfl | h
          · rw [hmkp]; exact hacc
          · exact ih _ t h
      · simp [matchLoop, if_neg hq, if_neg hacc]

/-- Structure of a head-scanning pass: the queue loses a front segment whose
orders are fully consumed — except possibly the last one, which stays at the
head with a reduced positive quantity — and the trades hit exactly those
orders in queue order.  `pid` projects the resting side's id out of a trade
(`Trade.sellId` when the queue is the ask side, `Trade.buyId` for bids). -/
theorem matchLoop_front_consumption (mk : Order → Nat → Trade)
    (accept : ℚ → Bool) (pid : Trade → Nat)
    (hpid : ∀ o a, pid (mk o a) = o.id) :
    ∀ (queue : List Order) (q : Nat),
      ∃ n,
        ((matchLoop mk accept q queue).2.2 = queue.drop n ∧
          (matchLoop mk accept q queue).1.map pid =
            (queue.take n).map Order.id) ∨
        (∃ o rest q', queue.drop n = o :: rest ∧ 0 < q' ∧ q' < o.quantity ∧
          (matchLoop mk accept q queue).2.2 =
            ({ o with quantity := q' } : Order) :: rest ∧
          (matchLoop mk accept q queue).1.map pid =
            (queue.take (n + 1)).map Order.id) := by
  intro queue
  induction queue with
  | nil =>
    intro q
    exact ⟨0, Or.inl (by simp [matchLoop])⟩
  | cons o rest ih =>
    intro q
    by_cases hq : q = 0
    · exact ⟨0, Or.inl (by simp [matchLoop, hq])⟩
    · by_cases hacc : accept o.price = true
      · by_cases hpar : 0 < o.quantity - min q o.quantity
        · have hlt : q < o.quantity := by omega
          refine ⟨0, Or.inr
            ⟨o, rest, o.quantity - min q o.quantity, rfl, hpar, ?_, ?_, ?_⟩⟩
          · have := Nat.min_le_right q o.quantity
            omega
          · simp [matchLoop, if_neg hq, if_pos hacc, hlt]
          · simp [matchLoop, if_neg hq, if_pos hacc, hlt, hpid]
        · have hnlt : ¬q < o.quantity := by omega
          obtain ⟨n, hn⟩ := ih (q - min q o.quantity)
          rcases hn with ⟨h1, h2⟩ | ⟨o', rest', q', h1, h2, h3, h4, h5⟩
          · refine ⟨n + 1, Or.inl ⟨?_, ?_⟩⟩
            · simp [matchLoop, if_neg hq, if_pos hacc, hnlt, h1]
            · simp [matchLoop, if_neg hq, if_pos hacc, hnlt, h2, hpid]
          · refine ⟨n + 1, Or.inr ⟨o', rest', q', by simpa using h1, h2, h3,
              ?_, ?_⟩⟩
            · simp [matchLoop, if_neg hq, if_pos hacc, hnlt, h4]
            · simp [matchLoop, if_neg hq, if_pos hacc, hnlt, h5, hpid]
      · exact ⟨0, Or.inl (by simp [matchLoop, if_neg hq, if_neg hacc])⟩

theorem distributeRemainder_zero (as : List Nat) :
    distributeRemainder as 0 = as := by
  cases as <;> rfl

theorem distributeRemainder_length (as : List Nat) :
    ∀ rem, (distributeRemainder as rem).length = as.length := by
  induction as with
  | nil => intro rem; rfl
  | cons a rest ih =>
    intro rem
    cases rem with
    | zero => rfl
    | succ r => simp [distributeRemainder, ih r]

theorem distributeRemainder_sum (as : List Nat) :
    ∀ rem, (distributeRemainder as rem).sum = as.sum + min rem as.length := by
  induction as with
  | nil => intro rem; simp [distributeRemainder]
  | cons a rest ih =>
    intro rem
    cases rem with
    | zero => simp [distributeRemainder]
    | succ r =>
      simp only [distributeRemainder, List.sum_cons, List.length_cons, ih r]
      omega

theorem distributeRemainder_get (as : List Nat) :
    ∀ rem i (h : i < (distributeRemainder as rem).length) (h' : i < as.length),
      (distributeRemainder as rem).get ⟨i, h⟩ =
        as.get ⟨i, h'⟩ + if i < rem then 1 else 0 := by
  induction as with
  | nil => intro rem i h h'; simp at h'
  | cons a rest ih =>
    intro rem i h h'
    cases rem with
    | zero => simp [distributeRemainder_zero] at h ⊢
    | succ r =>
      cases i with
      | zero => simp [distributeRemainder]
      | succ j =>
        have hj : j < (distributeRemainder rest r).length := by
          have := distributeRemainder_length rest r
          simp at h'
          omega
        simp only [distributeRemainder, List.get_cons_succ]
        rw [ih r j hj (by simpa using h')]
        have hiff : (j + 1 < r + 1) ↔ (j < r) := by omega
        simp [hiff]

theorem sum_map_div_le (xs : List Nat) (T : Nat) :
    (xs.map (fun x => x / T)).sum ≤ xs.sum / T := by
  induction xs with
  | nil => simp
  | cons x rest ih =>
    simp only [List.map_cons, List.sum_cons]
    calc x / T + (rest.map (fun x => x / T)).sum ≤ x / T + rest.sum / T := by
          omega
      _ ≤ (x + rest.sum) / T := Nat.add_div_le_add_div _ _ _

theorem sum_div_mod (xs : List Nat) (T : Nat) :
    xs.sum = T * (xs.map (fun x => x / T)).sum + (xs.map (fun x => x % T)).sum := by
  induction xs with
  | nil => simp
  | cons x rest ih =>
    simp only [List.map_cons, List.sum_cons]
    have hx := Nat.div_add_mod x T
    rw [Nat.mul_add]
    omega

theorem sum_mod_le (xs : List Nat) (T : Nat) (hT : 0 < T) :
    (xs.map (fun x => x % T)).sum ≤ xs.length * (T - 1) := by
  induction xs with
  | nil => simp
  | cons x rest ih =>
    simp only [List.map_cons, List.sum_cons, List.length_cons]
    have hx : x % T < T := Nat.mod_lt _ hT
    have : (rest.length + 1) * (T - 1) = rest.length * (T - 1) + (T - 1) := by
      ring
    omega

/-- The initial floors are integer divisions of the scaled sizes. -/
theorem allocInit_map_eq (T Q : Nat) (rs : List Nat) :
    rs.map (allocInit T Q) = (rs.map (fun r => r * Q)).map (fun x => x / T) := by
  simp only [List.map_map]
  exact List.map_congr_left fun r _ => by
    simp [Function.comp, allocInit_eq_div]

theorem sum_map_mul (rs : List Nat) (Q : Nat) :
    (rs.map (fun r => r * Q)).sum = rs.sum * Q := by
  induction rs with
  | nil => simp
  | cons r rest ih => simp [ih, Nat.add_mul]

/-- The initial floors sum to at most `Q`. -/
theorem allocInit_sum_le (rs : List Nat) (Q : Nat) (hT : 0 < rs.sum) :
    (rs.map (allocInit rs.sum Q)).sum ≤ Q := by
  rw [allocInit_map_eq]
  refine (sum_map_div_le _ _).trans ?_
  rw [sum_map_mul, Nat.mul_comm, Nat.mul_div_cancel _ hT]

/-- The initial floors miss `Q` by fewer than the number of eligible
orders. -/
theorem allocInit_rem_lt (rs : List Nat) (Q : Nat) (hT : 0 < rs.sum) :
    Q - (rs.map (allocInit rs.sum Q)).sum < rs.length := by
  have hn : 0 < rs.length := by
    cases rs with
    | nil => simp at hT
    | cons r rest => simp
  set T := rs.sum with hTdef
  set n := rs.length with hndef
  set xs := rs.map (fun r => r * Q) with hxs
  set S := (xs.map (fun x => x / T)).sum with hSset
  set M := (xs.map (fun x => x % T)).sum with hMset
  have hinit : (rs.map (allocInit T Q)).sum = S := by
    rw [allocInit_map_eq]
  have hxsum : xs.sum = T * Q := by
    rw [hxs, sum_map_mul, Nat.mul_comm]
  have hdm : xs.sum = T * S + M := sum_div_mod xs T
  have hmod : M ≤ n * (T - 1) := by
    have h := sum_mod_le xs T hT
    have hlen : xs.length = n := by simp [hxs, hndef]
    rw [hlen] at h
    exact h
  have hdist : n * (T - 1) = n * T - n := by
    cases T with
    | zero => simp
    | succ t =>
      simp only [Nat.succ_sub_one, Nat.mul_succ]
      omega
  rw [hinit]
  by_contra hcon
  push_neg at hcon
  have hTSQ : T * S ≤ T * Q := by omega
  have hSQ : S ≤ Q := Nat.le_of_mul_le_mul_left hTSQ hT
  have hQS : S + n ≤ Q := by omega
  have h1 : T * (S + n) ≤ T * Q := Nat.mul_le_mul_left T hQS
  rw [Nat.mul_add] at h1
  have h2 : T * n ≤ M := by omega
  have h3 : n * T ≤ n * T - n := by
    calc n * T = T * n := Nat.mul_comm _ _
      _ ≤ M := h2
      _ ≤ n * (T - 1) := hmod
      _ = n * T - n := hdist
  have h4 : n ≤ n * T := Nat.le_mul_of_pos_right n hT
  omega

/-- Total allocation equals the matched quantity `Q = min qty T`. -/
theorem proRataAllocs_sum (qty : Nat) (rs : List Nat) (hT : 0 < rs.sum) :
    (proRataAllocs qty rs).sum = min qty rs.sum := by
  unfold proRataAllocs
  have h1 := allocInit_sum_le rs (min qty rs.sum) hT
  have h2 := allocInit_rem_lt rs (min qty rs.sum) hT
  rw [distributeRemainder_sum]
  have hlen : (rs.map (allocInit rs.sum (min qty rs.sum))).length = rs.length := by
    simp
  omega

theorem proRataAllocs_length (qty : Nat) (rs : List Nat) :
    (proRataAllocs qty rs).length = rs.length := by
  unfold proRataAllocs
  rw [distributeRemainder_length]
  simp

/-- When the aggressor covers the whole level, every order is allocated its
full size. -/
theorem proRataAllocs_of_total (qty : Nat) (rs : List Nat) (hq : rs.sum ≤ qty)
    (hT : 0 < rs.sum) : proRataAllocs qty rs = rs := by
  have hQ : min qty rs.sum = rs.sum := min_eq_right hq
  have hmap : rs.map (allocInit rs.sum rs.sum) = rs := by
    have h : rs.map (allocInit rs.sum rs.sum) = rs.map id :=
      List.map_congr_left fun r _ => by
        rw [allocInit_eq_div, Nat.mul_div_cancel _ hT, id]
    rw [h, List.map_id]
  simp only [proRataAllocs, hQ, hmap, Nat.sub_self, distributeRemainder_zero]

/-- Pointwise bounds on allocations: each allocation is the exact floor or
the floor plus one, and never exceeds the (positive) resting size. -/
theorem proRataAllocs_get (qty : Nat) (rs : List Nat) (hT : 0 < rs.sum)
    (i : Nat) (h : i < (proRataAllocs qty rs).length) (h' : i < rs.length) :
    min qty rs.sum * rs.get ⟨i, h'⟩ / rs.sum ≤ (proRataAllocs qty rs).get ⟨i, h⟩ ∧
      (proRataAllocs qty rs).get ⟨i, h⟩ ≤
        min qty rs.sum * rs.get ⟨i, h'⟩ / rs.sum + 1 ∧
      (0 < rs.get ⟨i, h'⟩ →
        (proRataAllocs qty rs).get ⟨i, h⟩ ≤ rs.get ⟨i, h'⟩) := by
  rcases Nat.lt_or_ge qty rs.sum with hlt | hge
  · have hQ : min qty rs.sum = qty := min_eq_left (Nat.le_of_lt hlt)
    have hinit : ∀ (hi : i < (rs.map (allocInit rs.sum (min qty rs.sum))).length),
        (rs.map (allocInit rs.sum (min qty rs.sum))).get ⟨i, hi⟩ =
          min qty rs.sum * rs.get ⟨i, h'⟩ / rs.sum := by
      intro hi
      rw [List.get_map, allocInit_eq_div, Nat.mul_comm]
    have hilen : i < (rs.map (allocInit rs.sum (min qty rs.sum))).length := by
      simpa using h'
    have hget := distributeRemainder_get
      (rs.map (allocInit rs.sum (min qty rs.sum)))
      (min qty rs.sum - (rs.map (allocInit rs.sum (min qty rs.sum))).sum)
      i (by simpa [proRataAllocs] using h) hilen
    have hmain : (proRataAllocs qty rs).get ⟨i, h⟩ =
        min qty rs.sum * rs.get ⟨i, h'⟩ / rs.sum +
          if i < min qty rs.sum -
              (rs.map (allocInit rs.sum (min qty rs.sum))).sum then 1 else 0 := by
      unfold proRataAllocs
      rw [hget, hinit]
    refine ⟨?_, ?_, ?_⟩
    · rw [hmain]; split <;> omega
    · rw [hmain]; split <;> omega
    · intro hr
      have hminlt : min qty rs.sum < rs.sum := by omega
      have hfl : min qty rs.sum * rs.get ⟨i, h'⟩ / rs.sum < rs.get ⟨i, h'⟩ := by
        rw [Nat.div_lt_iff_lt_mul hT, Nat.mul_comm _ (rs.sum)]
        calc min qty rs.sum * rs.get ⟨i, h'⟩
            < rs.sum * rs.get ⟨i, h'⟩ := by
              exact Nat.mul_lt_mul_of_lt_of_le hminlt (Nat.le_refl _) hr
          _ = rs.sum * rs.get ⟨i, h'⟩ := rfl
      rw [hmain]; split <;> omega
  · have hall := proRataAllocs_of_total qty rs hge hT
    have hQ : min qty rs.sum = rs.sum := min_eq_right hge
    have hval : (proRataAllocs qty rs).get ⟨i, h⟩ = rs.get ⟨i, h'⟩ :=
      List.get_of_eq hall ⟨i, h⟩
    have hfl : min qty rs.sum * rs.get ⟨i, h'⟩ / rs.sum = rs.get ⟨i, h'⟩ := by
      rw [hQ, Nat.mul_div_cancel_left _ hT]
    rw [hval, hfl]
    omega

theorem tradesQty_reverse (l : List Trade) : tradesQty l.reverse = tradesQty l := by
  simp [tradesQty, List.map_reverse, List.sum_reverse]

theorem tradesQty_append (l₁ l₂ : List Trade) :
    tradesQty (l₁ ++ l₂) = tradesQty l₁ + tradesQty l₂ := by
  simp [tradesQty]

theorem levelTrades_sum (mk : Order → Nat → Trade)
    (hmk : ∀ o a, (mk o a).quantity = a) :
    ∀ (level : List Order) (allocs : List Nat), allocs.length ≤ level.length →
      tradesQty (levelTrades mk level allocs) = allocs.sum := by
  intro level
  induction level with
  | nil =>
    intro allocs h
    rw [List.length_nil, Nat.le_zero, List.length_eq_zero] at h
    subst h
    simp [levelTrades, tradesQty]
  | cons o os ih =>
    intro allocs h
    cases allocs with
    | nil => simp [levelTrades, tradesQty]
    | cons a rest =>
      have hle : rest.length ≤ os.length := by simpa using h
      have ihr := ih rest hle
      by_cases ha : 0 < a
      · simp only [levelTrades, if_pos ha, tradesQty, List.map_cons,
          List.sum_cons, hmk] at ihr ⊢
        omega
      · have ha0 : a = 0 := by omega
        simp only [levelTrades, if_neg ha, tradesQty, List.sum_cons] at ihr ⊢
        omega

theorem levelTrades_mem (mk : Order → Nat → Trade) :
    ∀ (level : List Order) (allocs : List Nat),
      ∀ t ∈ levelTrades mk level allocs, ∃ o ∈ level, ∃ a, 0 < a ∧ t = mk o a := by
  intro level
  induction level with
  | nil =>
    intro allocs t ht
    cases allocs <;> simp [levelTrades] at ht
  | cons o os ih =>
    intro allocs t ht
    cases allocs with
    | nil => simp [levelTrades] at ht
    | cons a rest =>
      by_cases ha : 0 < a
      · simp only [levelTrades, if_pos ha] at ht
        rcases List.mem_cons.1 ht with rfl | h
        · exact ⟨o, List.mem_cons_self o os, a, ha, rfl⟩
        · obtain ⟨o', ho', a', ha', rfl⟩ := ih rest t h
          exact ⟨o', List.mem_cons_of_mem _ ho', a', ha', rfl⟩
      · simp only [levelTrades, if_neg ha] at ht
        obtain ⟨o', ho', a', ha', rfl⟩ := ih rest t ht
        exact ⟨o', List.mem_cons_of_mem _ ho', a', ha', rfl⟩

theorem levelTrades_ids (mk : Order → Nat → Trade) (pid : Trade → Nat)
    (hpid : ∀ o a, pid (mk o a) = o.id) :
    ∀ (level : List Order) (allocs : List Nat),
      List.Sublist ((levelTrades mk level allocs).map pid) (level.map Order.id) := by
  intro level
  induction level with
  | nil =>
    intro allocs
    cases allocs <;> simp [levelTrades]
  | cons o os ih =>
    intro allocs
    cases allocs with
    | nil => simp [levelTrades]
    | cons a rest =>
      by_cases ha : 0 < a
      · simp only [levelTrades, if_pos ha, List.map_cons, hpid]
        exact List.Sublist.cons₂ _ (ih rest)
      · simp only [levelTrades, if_neg ha, List.map_cons]
        exact List.Sublist.cons _ (ih rest)

theorem applyAllocs_conserve :
    ∀ (queue : List Order) (allocs : List Nat),
      (∀ p ∈ allocs.zip queue, p.1 ≤ p.2.quantity) →
      allocs.length ≤ queue.length →
      totalQty queue = totalQty (applyAllocs queue allocs) + allocs.sum := by
  intro queue
  induction queue with
  | nil =>
    intro allocs _ h
    rw [List.length_nil, Nat.le_zero, List.length_eq_zero] at h
    subst h
    simp [applyAllocs, totalQty]
  | cons o os ih =>
    intro allocs hb hlen
    cases allocs with
    | nil => simp [applyAllocs]
    | cons a rest =>
      have hao : a ≤ o.quantity := hb (a, o) (by simp)
      have hrest : ∀ p ∈ rest.zip os, p.1 ≤ p.2.quantity := fun p hp =>
        hb p (by simp [hp])
      have hlen' : rest.length ≤ os.length := by simpa using hlen
      have ihr := ih rest hrest hlen'
      by_cases ha : 0 < a
      · by_cases hk : 0 < o.quantity - a
        · simp only [applyAllocs, if_pos ha, if_pos hk, totalQty,
            List.map_cons, List.sum_cons] at ihr ⊢
          omega
        · simp only [applyAllocs, if_pos ha, if_neg hk, totalQty,
            List.map_cons, List.sum_cons] at ihr ⊢
          omega
      · have ha0 : a = 0 := by omega
        simp only [applyAllocs, if_neg ha, totalQty, List.map_cons,
          List.sum_cons] at ihr ⊢
        omega

theorem applyAllocs_full :
    ∀ (queue : List Order) (k : Nat), (∀ o ∈ queue.take k, 0 < o.quantity) →
      applyAllocs queue ((queue.take k).map Order.quantity) = queue.drop k := by
  intro queue
  induction queue with
  | nil => intro k _; simp [applyAllocs]
  | cons o os ih =>
    intro k hpos
    cases k with
    | zero => simp [applyAllocs]
    | succ k =>
      have ho : 0 < o.quantity := hpos o (by simp)
      simp only [List.take_succ_cons, List.map_cons, applyAllocs, if_pos ho,
        Nat.sub_self, List.drop_succ_cons]
      rw [if_neg (by omega)]
      exact ih k fun x hx => hpos x (List.mem_cons_of_mem _ hx)

theorem collectLevel_price (target : ℚ) (queue : List Order) :
    ∀ o ∈ collectLevel target queue, o.price = target := by
  intro o ho
  unfold collectLevel at ho
  have h := List.mem_takeWhile_imp (p := fun o : Order => decide (o.price = target)) ho
  simpa using h

theorem collectLevel_sublist (target : ℚ) (queue : List Order) :
    List.Sublist (collectLevel target queue) queue := List.takeWhile_sublist _

theorem collectLevel_take (target : ℚ) :
    ∀ queue : List Order,
      queue.take (collectLevel target queue).length = collectLevel target queue := by
  intro queue
  induction queue with
  | nil => rfl
  | cons o rest ih =>
    by_cases hp : decide (o.price = target) = true
    · simp only [collectLevel, List.takeWhile_cons, hp, if_true,
        List.length_cons, List.take_succ_cons] at ih ⊢
      rw [ih]
    · simp [collectLevel, List.takeWhile_cons, hp]

/-- Each allocation is bounded by the quantity of the order at the same
queue position (positivity of resting quantities assumed, as maintained by
every matcher). -/
theorem proRataAllocs_zip_le (qty : Nat) (target : ℚ) (queue : List Order)
    (hpos : ∀ o ∈ queue, 0 < o.quantity)
    (hT : 0 < ((collectLevel target queue).map Order.quantity).sum) :
    ∀ p ∈ (proRataAllocs qty
        ((collectLevel target queue).map Order.quantity)).zip queue,
      p.1 ≤ p.2.quantity := by
  intro p hp
  set level := collectLevel target queue with hlevel
  set rs := level.map Order.quantity with hrs
  set allocs := proRataAllocs qty rs with hallocs
  obtain ⟨j, hj⟩ := List.mem_iff_get.1 hp
  have hlenzip : j.val < min allocs.length queue.length := by
    rw [← List.length_zip]
    exact j.2
  have hja : j.val < allocs.length := lt_of_lt_of_le hlenzip (min_le_left _ _)
  have hjq : j.val < queue.length := lt_of_lt_of_le hlenzip (min_le_right _ _)
  have hlenal : allocs.length = rs.length := proRataAllocs_length qty rs
  have hjr : j.val < rs.length := by omega
  have hrl : rs.length = level.length := by rw [hrs, List.length_map]
  have hjl : j.val < level.length := by omega
  have hzip : p = (allocs.get ⟨j.val, hja⟩, queue.get ⟨j.val, hjq⟩) := by
    rw [← hj]
    simp [List.get_eq_getElem, List.getElem_zip]
  have htake : queue.take level.length = level := by
    rw [hlevel]
    exact collectLevel_take target queue
  have hqlev : level.get ⟨j.val, hjl⟩ = queue.get ⟨j.val, hjq⟩ := by
    have h1 : level.get ⟨j.val, hjl⟩ =
        (queue.take level.length).get ⟨j.val, by rw [htake]; exact hjl⟩ :=
      List.get_of_eq htake.symm ⟨j.val, hjl⟩
    rw [h1, List.get_take']
  have hrval : rs.get ⟨j.val, hjr⟩ = (level.get ⟨j.val, hjl⟩).quantity :=
    List.get_map Order.quantity
  have hposj : 0 < rs.get ⟨j.val, hjr⟩ := by
    rw [hrval]
    exact hpos _ ((collectLevel_sublist target queue).subset
      (hlevel ▸ List.get_mem level _ _))
  have hbound := (proRataAllocs_get qty rs hT j.val hja hjr).2.2 hposj
  rw [hzip]
  show allocs.get ⟨j.val, hja⟩ ≤ (queue.get ⟨j.val, hjq⟩).quantity
  rw [← hqlev, ← hrval]
  exact hbound

/-- Conservation through the collect/allocate/execute phase. -/
theorem proRataExec_conserve (mk : Order → Nat → Trade)
    (hmk : ∀ o a, (mk o a).quantity = a) (qty : Nat) (target : ℚ)
    (queue : List Order) (hpos : ∀ o ∈ queue, 0 < o.quantity) :
    tradesQty (proRataExec mk qty target queue).1 =
        qty - (proRataExec mk qty target queue).2.1 ∧
      (proRataExec mk qty target queue).2.1 ≤ qty ∧
      totalQty queue =
        totalQty (proRataExec mk qty target queue).2.2 +
          (qty - (proRataExec mk qty target queue).2.1) := by
  by_cases hT : totalQty (collectLevel target queue) = 0
  · simp [proRataExec, hT, tradesQty]
  · have hT' : 0 < ((collectLevel target queue).map Order.quantity).sum := by
      have h : totalQty (collectLevel target queue) =
          ((collectLevel target queue).map Order.quantity).sum := rfl
      omega
    set level := collectLevel target queue with hlevel
    set rs := level.map Order.quantity with hrs
    set allocs := proRataAllocs qty rs with hallocs
    have hsum : allocs.sum = min qty rs.sum := proRataAllocs_sum qty rs hT'
    have hlen : allocs.length = rs.length := proRataAllocs_length qty rs
    have hrl : rs.length = level.length := by
      rw [hrs, List.length_map]
    have hlenlevel : allocs.length ≤ level.length := by omega
    have hql : level.length ≤ queue.length := by
      have h := (collectLevel_sublist target queue).length_le
      rw [← hlevel] at h
      exact h
    have hlenqueue : allocs.length ≤ queue.length := by omega
    have htr : tradesQty (levelTrades mk level allocs).reverse = allocs.sum := by
      rw [tradesQty_reverse]
      exact levelTrades_sum mk hmk level allocs hlenlevel
    have hcons := applyAllocs_conserve queue allocs
      (proRataAllocs_zip_le qty target queue hpos hT') hlenqueue
    have hexec : proRataExec mk qty target queue =
        ((levelTrades mk level allocs).reverse, qty - allocs.sum,
          applyAllocs queue allocs) := by
      simp only [proRataExec, hlevel]
      rw [if_neg hT]
    rw [hexec]
    dsimp only
    have hQle : allocs.sum ≤ qty := by
      rw [hsum]; exact min_le_left _ _
    refine ⟨?_, by omega, ?_⟩
    · rw [htr]; omega
    · rw [hcons]; omega

/-- Every trade of the phase prints at the target price. -/
theorem proRataExec_price (mk : Order → Nat → Trade)
    (hmkp : ∀ o a, (mk o a).price = o.price) (qty : Nat) (target : ℚ)
    (queue : List Order) :
    ∀ t ∈ (proRataExec mk qty target queue).1, t.price = target := by
  intro t ht
  by_cases hT : totalQty (collectLevel target queue) = 0
  · simp [proRataExec, hT] at ht
  · have hexec : (proRataExec mk qty target queue).1 =
        (levelTrades mk (collectLevel target queue)
          (proRataAllocs qty
            ((collectLevel target queue).map Order.quantity))).reverse := by
      simp only [proRataExec]
      rw [if_neg hT]
    rw [hexec, List.mem_reverse] at ht
    obtain ⟨o, ho, a, _, rfl⟩ := levelTrades_mem mk _ _ t ht
    rw [hmkp]
    exact collectLevel_price target queue o ho

/-- Every trade of the phase hits an order of the collected level (by id). -/
theorem proRataExec_mem (mk : Order → Nat → Trade) (qty : Nat) (target : ℚ)
    (queue : List Order) :
    ∀ t ∈ (proRataExec mk qty target queue).1,
      ∃ o ∈ collectLevel target queue, ∃ a, 0 < a ∧ t = mk o a := by
  intro t ht
  by_cases hT : totalQty (collectLevel target queue) = 0
  · simp [proRataExec, hT] at ht
  · have hexec : (proRataExec mk qty target queue).1 =
        (levelTrades mk (collectLevel target queue)
          (proRataAllocs qty
            ((collectLevel target queue).map Order.quantity))).reverse := by
      simp only [proRataExec]
      rw [if_neg hT]
    rw [hexec, List.mem_reverse] at ht
    exact levelTrades_mem mk _ _ t ht

/-- The trades of the phase, projected to the resting side's ids, form a
sublist of the *reversed* queue ids: they come out in reverse
time-priority order. -/
theorem proRataExec_ids (mk : Order → Nat → Trade) (pid : Trade → Nat)
    (hpid : ∀ o a, pid (mk o a) = o.id) (qty : Nat) (target : ℚ)
    (queue : List Order) :
    List.Sublist ((proRataExec mk qty target queue).1.map pid)
      ((queue.map Order.id).reverse) := by
  by_cases hT : totalQty (collectLevel target queue) = 0
  · simp [proRataExec, hT]
  · have hexec : (proRataExec mk qty target queue).1 =
        (levelTrades mk (collectLevel target queue)
          (proRataAllocs qty
            ((collectLevel target queue).map Order.quantity))).reverse := by
      simp only [proRataExec]
      rw [if_neg hT]
    rw [hexec, List.map_reverse]
    rw [List.reverse_sublist]
    exact (levelTrades_ids mk pid hpid _ _).trans
      ((collectLevel_sublist target queue).map Order.id)

/-- When the aggressor quantity covers the whole level, the level is removed
from the queue outright and the remaining quantity is the exact overflow. -/
theorem proRataExec_full (mk : Order → Nat → Trade) (qty : Nat) (target : ℚ)
    (queue : List Order) (hpos : ∀ o ∈ queue, 0 < o.quantity)
    (hq : totalQty (collectLevel target queue) ≤ qty)
    (hT : totalQty (collectLevel target queue) ≠ 0) :
    (proRataExec mk qty target queue).2.2 =
        queue.drop (collectLevel target queue).length ∧
      (proRataExec mk qty target queue).2.1 =
        qty - totalQty (collectLevel target queue) := by
  have hT' : 0 < ((collectLevel target queue).map Order.quantity).sum := by
    have h : totalQty (collectLevel target queue) =
        ((collectLevel target queue).map Order.quantity).sum := rfl
    omega
  set level := collectLevel target queue with hlevel
  set rs := level.map Order.quantity with hrs
  have hsumrs : rs.sum = totalQty level := rfl
  have hallocs : proRataAllocs qty rs = rs :=
    proRataAllocs_of_total qty rs (by omega) hT'
  have hexec : proRataExec mk qty target queue =
      ((levelTrades mk level (proRataAllocs qty rs)).reverse,
        qty - (proRataAllocs qty rs).sum,
        applyAllocs queue (proRataAllocs qty rs)) := by
    simp only [proRataExec, hlevel]
    rw [if_neg hT]
  have htake : rs = (queue.take level.length).map Order.quantity := by
    rw [hrs, collectLevel_take]
  have hfull : applyAllocs queue (proRataAllocs qty rs) =
      queue.drop level.length := by
    rw [hallocs, htake]
    exact applyAllocs_full queue level.length fun o ho =>
      hpos o (List.take_subset _ _ ho)
  rw [hexec]
  refine ⟨hfull, ?_⟩
  rw [hallocs, hsumrs]

/-- With `fifo_percentage ≤ 1` the FIFO slice never exceeds the total. -/
theorem hybridFifoQty_le (pct : ℚ) (q : Nat) (h : pct ≤ 1) :
    hybridFifoQty pct q ≤ q := by
  have h1 : (q : ℚ) * pct ≤ (q : ℚ) :=
    mul_le_of_le_one_right (by positivity) h
  calc hybridFifoQty pct q = ⌊(q : ℚ) * pct⌋₊ := rfl
    _ ≤ ⌊(q : ℚ)⌋₊ := Nat.floor_le_floor h1
    _ = q := Nat.floor_natCast q

/-- The pro-rata phase never trades more than the quantity given to it
(no book-invariant hypothesis needed). -/
theorem proRataExec_trades_le (mk : Order → Nat → Trade)
    (hmk : ∀ o a, (mk o a).quantity = a) (qty : Nat) (target : ℚ)
    (queue : List Order) :
    tradesQty (proRataExec mk qty target queue).1 ≤ qty := by
  by_cases hT : totalQty (collectLevel target queue) = 0
  · simp [proRataExec, hT, tradesQty]
  · have hT' : 0 < ((collectLevel target queue).map Order.quantity).sum := by
      have h : totalQty (collectLevel target queue) =
          ((collectLevel target queue).map Order.quantity).sum := rfl
      omega
    have hexec : (proRataExec mk qty target queue).1 =
        (levelTrades mk (collectLevel target queue)
          (proRataAllocs qty
            ((collectLevel target queue).map Order.quantity))).reverse := by
      simp only [proRataExec]
      rw [if_neg hT]
    rw [hexec, tradesQty_reverse]
    rw [levelTrades_sum mk hmk _ _ (by
      rw [proRataAllocs_length, List.length_map])]
    rw [proRataAllocs_sum _ _ hT']
    exact min_le_left _ _

/-!
## The claims
-/

/-- Claim C6: an order with `quantity == 0` or `price <= 0` is rejected by
all three matchers — `FifoMatcher::match_order` with a typed `InvalidOrder`
error, `ProRataMatcher::match_order` and `HybridMatcher::match_order` with an
empty trade list — and in every case the book is completely unchanged. -/
theorem C6_invalid_order_rejected (fb : FifoBook) (pb : ProRataBook)
    (hb : HybridBook) (o : Order) (h : o.quantity = 0 ∨ o.price ≤ 0) :
    (∃ msg, fifoMatchOrder fb o = (.error (.invalidOrder msg), fb)) ∧
      proRataMatchOrder pb o = ([], pb) ∧
      hybridMatchOrder hb o = ([], hb) := by
  refine ⟨?_, ?_, ?_⟩
  · by_cases hq : o.quantity = 0
    · exact ⟨"Order quantity cannot be zero", by simp [fifoMatchOrder, hq]⟩
    · have hp : o.price ≤ 0 := by tauto
      exact ⟨"Order price must be positive", by simp [fifoMatchOrder, hq, hp]⟩
  · simp only [proRataMatchOrder, if_pos h]
  · simp only [hybridMatchOrder, if_pos h]

/-- Witness for C6 at the concrete invalid order Buy(id=1, p=100, q=0). -/
theorem C6_witness :
    ((⟨1, .buy, 100, 0⟩ : Order).quantity = 0 ∨
        (⟨1, .buy, 100, 0⟩ : Order).price ≤ 0) ∧
      ((∃ msg, fifoMatchOrder ⟨[], []⟩ ⟨1, .buy, 100, 0⟩ =
          (.error (.invalidOrder msg), ⟨[], []⟩)) ∧
        proRataMatchOrder ⟨[], []⟩ ⟨1, .buy, 100, 0⟩ = ([], ⟨[], []⟩) ∧
        hybridMatchOrder ⟨[], [], 1⟩ ⟨1, .buy, 100, 0⟩ = ([], ⟨[], [], 1⟩)) :=
  ⟨Or.inl rfl,
    C6_invalid_order_rejected ⟨[], []⟩ ⟨[], []⟩ ⟨[], [], 1⟩ ⟨1, .buy, 100, 0⟩
      (Or.inl rfl)⟩

/-- Claim C10: with `config.fifo_percentage` outside `[0, 1]`,
`HybridMatcher::match_order` returns an empty trade list and leaves the book
untouched for every incoming order — the order is silently dropped, neither
matched nor rested. -/
theorem C10_out_of_range_fraction_drops_order (hb : HybridBook) (o : Order)
    (h : hb.fifoPct < 0 ∨ 1 < hb.fifoPct) :
    hybridMatchOrder hb o = ([], hb) := by
  by_cases hv : o.quantity = 0 ∨ o.price ≤ 0
  · simp only [hybridMatchOrder, if_pos hv]
  · simp only [hybridMatchOrder, if_neg hv, if_pos h]

/-- Witness for C10: `fifo_percentage = 2` silently drops a valid crossing
Buy. -/
theorem C10_witness :
    ((2 : ℚ) < 0 ∨ 1 < (2 : ℚ)) ∧
      hybridMatchOrder ⟨[], [⟨1, .sell, 100, 5⟩], 2⟩ ⟨2, .buy, 100, 5⟩ =
        ([], ⟨[], [⟨1, .sell, 100, 5⟩], 2⟩) :=
  ⟨Or.inr (by decide),
    C10_out_of_range_fraction_drops_order ⟨[], [⟨1, .sell, 100, 5⟩], 2⟩
      ⟨2, .buy, 100, 5⟩ (Or.inr (by decide))⟩

/-- Claim C1 (code bug): submitting Buy(id=1, p=101, q=10) and then
Sell(id=2, p=100, q=10) to `FifoMatcher`, the resting bid at 101 is matched
but the trade prints at 100 — the *aggressor sell's* price —
because `execute_trade` always uses `sell_order.price`.  The claim (and the
spec's price rule) require the resting bid's price 101. -/
theorem C1_fifo_sell_trade_at_aggressor_price :
    (fifoRun [⟨1, .buy, 101, 10⟩]).bids = [⟨1, .buy, 101, 10⟩] ∧
      (fifoMatchOrder (fifoRun [⟨1, .buy, 101, 10⟩]) ⟨2, .sell, 100, 10⟩).1 =
        .ok [⟨1, 2, 100, 10⟩] ∧
      (⟨1, 2, 100, 10⟩ : Trade).price ≠ (⟨1, .buy, 101, 10⟩ : Order).price := by
  refine ⟨by decide, by rfl, by decide⟩

/-- Claim C5 (code bug): after the submissions Buy(1,100,10), Buy(2,105,10),
Sell(3,103,10) the FIFO book is crossed: the bid at 105 rests behind the
head bid at 100, the sell at 103 is only compared against the head and
rests, so a resting ask price (103) is ≤ a resting bid price (105),
violating the claimed strict `best_bid < best_ask` invariant (with best =
highest bid / lowest ask over all resting orders). -/
theorem C5_crossed_book_after_rest :
    fifoRun [⟨1, .buy, 100, 10⟩, ⟨2, .buy, 105, 10⟩, ⟨3, .sell, 103, 10⟩] =
      ⟨[⟨1, .buy, 100, 10⟩, ⟨2, .buy, 105, 10⟩], [⟨3, .sell, 103, 10⟩]⟩ ∧
      ∃ b ∈ (fifoRun [⟨1, .buy, 100, 10⟩, ⟨2, .buy, 105, 10⟩,
          ⟨3, .sell, 103, 10⟩]).bids,
        ∃ a ∈ (fifoRun [⟨1, .buy, 100, 10⟩, ⟨2, .buy, 105, 10⟩,
            ⟨3, .sell, 103, 10⟩]).asks,
          a.price ≤ b.price := by
  refine ⟨by decide, ?_⟩
  refine ⟨⟨2, .buy, 105, 10⟩, by decide, ⟨3, .sell, 103, 10⟩, by decide,
    by decide⟩

/-- Claim C3: for eligible resting sizes `rs` (all positive, total `T > 0`)
and match quantity `Q = min qty T`, the allocation list satisfies
`Σ a_i = Q`, and each `a_i` lies between `⌊Q·r_i/T⌋` and `⌊Q·r_i/T⌋ + 1`
(exact integer arithmetic) and never exceeds `r_i`. -/
theorem C3_allocation_bounds (rs : List Nat) (q : Nat)
    (hpos : ∀ r ∈ rs, 0 < r) (hT : 0 < rs.sum) :
    (proRataAllocs q rs).sum = min q rs.sum ∧
      (proRataAllocs q rs).length = rs.length ∧
      ∀ i (h : i < (proRataAllocs q rs).length) (h' : i < rs.length),
        min q rs.sum * rs.get ⟨i, h'⟩ / rs.sum ≤
            (proRataAllocs q rs).get ⟨i, h⟩ ∧
          (proRataAllocs q rs).get ⟨i, h⟩ ≤
            min q rs.sum * rs.get ⟨i, h'⟩ / rs.sum + 1 ∧
          (proRataAllocs q rs).get ⟨i, h⟩ ≤ rs.get ⟨i, h'⟩ := by
  refine ⟨proRataAllocs_sum q rs hT, proRataAllocs_length q rs, ?_⟩
  intro i h h'
  have hb := proRataAllocs_get q rs hT i h h'
  exact ⟨hb.1, hb.2.1, hb.2.2 (hpos _ (List.get_mem rs i h'))⟩

/-- Witness for C3 at the S3 sizes (50, 150) and aggressor quantity 100. -/
theorem C3_witness :
    (∀ r ∈ [50, 150], 0 < r) ∧ 0 < [50, 150].sum ∧
      ((proRataAllocs 100 [50, 150]).sum = min 100 [50, 150].sum ∧
        (proRataAllocs 100 [50, 150]).length = [50, 150].length ∧
        ∀ i (h : i < (proRataAllocs 100 [50, 150]).length)
          (h' : i < [50, 150].length),
          min 100 [50, 150].sum * [50, 150].get ⟨i, h'⟩ / [50, 150].sum ≤
              (proRataAllocs 100 [50, 150]).get ⟨i, h⟩ ∧
            (proRataAllocs 100 [50, 150]).get ⟨i, h⟩ ≤
              min 100 [50, 150].sum * [50, 150].get ⟨i, h'⟩ / [50, 150].sum + 1 ∧
            (proRataAllocs 100 [50, 150]).get ⟨i, h⟩ ≤ [50, 150].get ⟨i, h'⟩) :=
  ⟨by decide, by decide,
    C3_allocation_bounds [50, 150] 100 (by decide) (by decide)⟩

/-- Claim C2 counterexample: in scenario S3 (resting Asks id=11 q=50 and
id=12 q=150 at p=50, incoming Buy id=13 p=50 q=100) the trade against id=12
comes FIRST — `sort_by(|a, b| b.0.cmp(&a.0))` executes allocations in
descending queue-index order — so the returned list is
`[{13,12,50,75}, {13,11,50,25}]`, not the claimed
`[{13,11,50,25}, {13,12,50,75}]`. -/
theorem C2_counterexample_s3_reversed :
    (proRataMatchOrder ⟨[], [⟨11, .sell, 50, 50⟩, ⟨12, .sell, 50, 150⟩]⟩
        ⟨13, .buy, 50, 100⟩).1 =
      [⟨13, 12, 50, 75⟩, ⟨13, 11, 50, 25⟩] ∧
      (proRataMatchOrder ⟨[], [⟨11, .sell, 50, 50⟩, ⟨12, .sell, 50, 150⟩]⟩
          ⟨13, .buy, 50, 100⟩).1 ≠
        [⟨13, 11, 50, 25⟩, ⟨13, 12, 50, 75⟩] := by
  have h : (proRataMatchOrder ⟨[], [⟨11, .sell, 50, 50⟩, ⟨12, .sell, 50, 150⟩]⟩
      ⟨13, .buy, 50, 100⟩).1 = [⟨13, 12, 50, 75⟩, ⟨13, 11, 50, 25⟩] := by
    simp [proRataMatchOrder, proRataMatchBuy, proRataExec, proRataAllocs,
      collectLevel, totalQty, allocInit_eq_div, distributeRemainder,
      levelTrades, applyAllocs]
    decide
  refine ⟨h, ?_⟩
  rw [h]
  decide

/-- Claim C2 (amended): the trades of a crossing ProRata submission appear
in *reverse* collection order — the execution loop sorts the allocation
entries by descending queue index — so the resting-side ids of the returned
trades form a sublist of the REVERSED opposite-queue ids (buy and sell
sides), and likewise for the shared pro-rata execution phase used by
`HybridMatcher` (`proRataExec`); in S3 the trade against id=12 precedes the
trade against id=11. -/
theorem C2_trades_in_reverse_collection_order (book : ProRataBook)
    (o : Order) :
    (o.side = .buy →
        List.Sublist ((proRataMatchOrder book o).1.map Trade.sellId)
          ((book.asks.map Order.id).reverse)) ∧
      (o.side = .sell →
        List.Sublist ((proRataMatchOrder book o).1.map Trade.buyId)
          ((book.bids.map Order.id).reverse)) ∧
      (∀ (qty : Nat) (target : ℚ) (queue : List Order),
        List.Sublist
          ((proRataExec (fun ask a => ⟨o.id, ask.id, ask.price, a⟩)
              qty target queue).1.map Trade.sellId)
          ((queue.map Order.id).reverse)) ∧
      (∀ (qty : Nat) (target : ℚ) (queue : List Order),
        List.Sublist
          ((proRataExec (fun bid a => ⟨bid.id, o.id, bid.price, a⟩)
              qty target queue).1.map Trade.buyId)
          ((queue.map Order.id).reverse)) := by
  refine ⟨?_, ?_, ?_, ?_⟩
  · intro hside
    by_cases hv : o.quantity = 0 ∨ o.price ≤ 0
    · simp [proRataMatchOrder, if_pos hv, List.nil_sublist]
    · simp only [proRataMatchOrder, if_neg hv, hside]
      cases hasks : book.asks with
      | nil => simp [proRataMatchBuy, hasks, List.nil_sublist]
      | cons front tl =>
        simp only [proRataMatchBuy, hasks]
        by_cases hcross : o.price < front.price
        · simp [if_pos hcross, List.nil_sublist]
        · simp only [if_neg hcross]
          exact proRataExec_ids _ Trade.sellId (fun _ _ => rfl) _ _ _
  · intro hside
    by_cases hv : o.quantity = 0 ∨ o.price ≤ 0
    · simp [proRataMatchOrder, if_pos hv, List.nil_sublist]
    · simp only [proRataMatchOrder, if_neg hv, hside]
      cases hbids : book.bids with
      | nil => simp [proRataMatchSell, hbids, List.nil_sublist]
      | cons front tl =>
        simp only [proRataMatchSell, hbids]
        by_cases hcross : front.price < o.price
        · simp [if_pos hcross, List.nil_sublist]
        · simp only [if_neg hcross]
          exact proRataExec_ids _ Trade.buyId (fun _ _ => rfl) _ _ _
  · intro qty target queue
    exact proRataExec_ids _ Trade.sellId (fun _ _ => rfl) _ _ _
  · intro qty target queue
    exact proRataExec_ids _ Trade.buyId (fun _ _ => rfl) _ _ _

/-- Witness for C2 at S3: the sellIds [12, 11] are a sublist of the
reversed ask ids [12, 11]. -/
theorem C2_witness :
    (⟨13, .buy, 50, 100⟩ : Order).side = Side.buy ∧
      List.Sublist
        ((proRataMatchOrder ⟨[], [⟨11, .sell, 50, 50⟩, ⟨12, .sell, 50, 150⟩]⟩
            ⟨13, .buy, 50, 100⟩).1.map Trade.sellId)
        ((([⟨11, .sell, 50, 50⟩, ⟨12, .sell, 50, 150⟩] :
            List Order).map Order.id).reverse) :=
  ⟨rfl,
    (C2_trades_in_reverse_collection_order
        ⟨[], [⟨11, .sell, 50, 50⟩, ⟨12, .sell, 50, 150⟩]⟩
        ⟨13, .buy, 50, 100⟩).1 rfl⟩

/-- Claim C4: for every submission to any of the three matchers, the sum of
the returned trade quantities is at most the incoming quantity and equals
the decrease in total resting quantity on the opposite side (for ProRata and
Hybrid under the book invariant that resting quantities are positive, which
every matcher maintains). -/
theorem C4_conservation :
    (∀ (book : FifoBook) (o : Order) (ts : List Trade), o.side = .buy →
        (fifoMatchOrder book o).1 = .ok ts →
        tradesQty ts ≤ o.quantity ∧
          totalQty book.asks =
            totalQty (fifoMatchOrder book o).2.asks + tradesQty ts) ∧
      (∀ (book : FifoBook) (o : Order) (ts : List Trade), o.side = .sell →
        (fifoMatchOrder book o).1 = .ok ts →
        tradesQty ts ≤ o.quantity ∧
          totalQty book.bids =
            totalQty (fifoMatchOrder book o).2.bids + tradesQty ts) ∧
      (∀ (book : ProRataBook) (o : Order), o.side = .buy →
        (∀ x ∈ book.asks, 0 < x.quantity) →
        tradesQty (proRataMatchOrder book o).1 ≤ o.quantity ∧
          totalQty book.asks =
            totalQty (proRataMatchOrder book o).2.asks +
              tradesQty (proRataMatchOrder book o).1) ∧
      (∀ (book : ProRataBook) (o : Order), o.side = .sell →
        (∀ x ∈ book.bids, 0 < x.quantity) →
        tradesQty (proRataMatchOrder book o).1 ≤ o.quantity ∧
          totalQty book.bids =
            totalQty (proRataMatchOrder book o).2.bids +
              tradesQty (proRataMatchOrder book o).1) ∧
      (∀ (book : HybridBook) (o : Order), o.side = .buy →
        (∀ x ∈ book.asks, 0 < x.quantity) →
        tradesQty (hybridMatchOrder book o).1 ≤ o.quantity ∧
          totalQty book.asks =
            totalQty (hybridMatchOrder book o).2.asks +
              tradesQty (hybridMatchOrder book o).1) ∧
      (∀ (book : HybridBook) (o : Order), o.side = .sell →
        (∀ x ∈ book.bids, 0 < x.quantity) →
        tradesQty (hybridMatchOrder book o).1 ≤ o.quantity ∧
          totalQty book.bids =
            totalQty (hybridMatchOrder book o).2.bids +
              tradesQty (hybridMatchOrder book o).1) := by
  refine ⟨?_, ?_, ?_, ?_, ?_, ?_⟩
  · intro book o ts hside hok
    by_cases hq : o.quantity = 0
    · rw [fifoMatchOrder] at hok
      simp [hq] at hok
    · by_cases hp : o.price ≤ 0
      · rw [fifoMatchOrder] at hok
        simp [hq, hp] at hok
      · have hc := matchLoop_conserve (fun ask q => ⟨o.id, ask.id, ask.price, q⟩)
          (fun p => decide (p ≤ o.price)) (fun _ _ => rfl) book.asks o.quantity
        simp only [fifoMatchOrder, if_neg hq, if_neg hp, hside] at hok ⊢
        rw [Except.ok.injEq] at hok
        subst hok
        obtain ⟨h1, h2, h3⟩ := hc
        exact ⟨by omega, by omega⟩
  · intro book o ts hside hok
    by_cases hq : o.quantity = 0
    · rw [fifoMatchOrder] at hok
      simp [hq] at hok
    · by_cases hp : o.price ≤ 0
      · rw [fifoMatchOrder] at hok
        simp [hq, hp] at hok
      · have hc := matchLoop_conserve (fun bid q => ⟨bid.id, o.id, o.price, q⟩)
          (fun p => decide (o.price ≤ p)) (fun _ _ => rfl) book.bids o.quantity
        simp only [fifoMatchOrder, if_neg hq, if_neg hp, hside] at hok ⊢
        rw [Except.ok.injEq] at hok
        subst hok
        obtain ⟨h1, h2, h3⟩ := hc
        exact ⟨by omega, by omega⟩
  · intro book o hside hpos
    by_cases hv : o.quantity = 0 ∨ o.price ≤ 0
    · simp [proRataMatchOrder, if_pos hv, tradesQty]
    · simp only [proRataMatchOrder, if_neg hv, hside]
      cases hasks : book.asks with
      | nil => simp [proRataMatchBuy, tradesQty, hasks]
      | cons front tl =>
        have hpos' : ∀ x ∈ front :: tl, 0 < x.quantity := by
          rw [← hasks]; exact hpos
        simp only [proRataMatchBuy, hasks]
        by_cases hcross : o.price < front.price
        · simp [if_pos hcross, tradesQty, hasks]
        · simp only [if_neg hcross]
          obtain ⟨h1, h2, h3⟩ := proRataExec_conserve
            (fun ask a => ⟨o.id, ask.id, ask.price, a⟩) (fun _ _ => rfl)
            o.quantity front.price (front :: tl) hpos'
          exact ⟨by omega, by omega⟩
  · intro book o hside hpos
    by_cases hv : o.quantity = 0 ∨ o.price ≤ 0
    · simp [proRataMatchOrder, if_pos hv, tradesQty]
    · simp only [proRataMatchOrder, if_neg hv, hside]
      cases hbids : book.bids with
      | nil => simp [proRataMatchSell, tradesQty, hbids]
      | cons front tl =>
        have hpos' : ∀ x ∈ front :: tl, 0 < x.quantity := by
          rw [← hbids]; exact hpos
        simp only [proRataMatchSell, hbids]
        by_cases hcross : front.price < o.price
        · simp [if_pos hcross, tradesQty, hbids]
        · simp only [if_neg hcross]
          obtain ⟨h1, h2, h3⟩ := proRataExec_conserve
            (fun bid a => ⟨bid.id, o.id, bid.price, a⟩) (fun _ _ => rfl)
            o.quantity front.price (front :: tl) hpos'
          exact ⟨by omega, by omega⟩
  · intro book o hside hpos
    by_cases hv : o.quantity = 0 ∨ o.price ≤ 0
    · simp [hybridMatchOrder, if_pos hv, tradesQty]
    · by_cases hrange : book.fifoPct < 0 ∨ 1 < book.fifoPct
      · simp [hybridMatchOrder, if_neg hv, if_pos hrange, tradesQty]
      · have hle : book.fifoPct ≤ 1 :=
          le_of_not_lt fun hgt => hrange (Or.inr hgt)
        have hqF : hybridFifoQty book.fifoPct o.quantity ≤ o.quantity :=
          hybridFifoQty_le _ _ hle
        simp only [hybridMatchOrder, if_neg hv, if_neg hrange, hside]
        cases hasks : book.asks with
        | nil => simp [hybridMatchBuy, tradesQty, hasks]
        | cons front tl =>
          have hpos' : ∀ x ∈ front :: tl, 0 < x.quantity := by
            rw [← hasks]; exact hpos
          simp only [hybridMatchBuy, hasks]
          by_cases hcross : o.price < front.price
          · simp [if_pos hcross, tradesQty, hasks]
          · simp only [if_neg hcross]
            set qF := hybridFifoQty book.fifoPct o.quantity with hqFdef
            set f := matchLoop (fun ask q => ⟨o.id, ask.id, ask.price, q⟩)
              (fun p => decide (p = front.price)) qF (front :: tl) with hfdef
            set g := proRataExec (fun ask a => ⟨o.id, ask.id, ask.price, a⟩)
              (o.quantity - qF) front.price f.2.2 with hgdef
            have hf := matchLoop_conserve
              (fun ask q => ⟨o.id, ask.id, ask.price, q⟩)
              (fun p => decide (p = front.price)) (fun _ _ => rfl)
              (front :: tl) qF
            rw [← hfdef] at hf
            have hfp := matchLoop_pos
              (fun ask q => ⟨o.id, ask.id, ask.price, q⟩)
              (fun p => decide (p = front.price)) (front :: tl) qF hpos'
            rw [← hfdef] at hfp
            have hg := proRataExec_conserve
              (fun ask a => ⟨o.id, ask.id, ask.price, a⟩) (fun _ _ => rfl)
              (o.quantity - qF) front.price f.2.2 hfp
            rw [← hgdef] at hg
            obtain ⟨hf1, hf2, hf3⟩ := hf
            obtain ⟨hg1, hg2, hg3⟩ := hg
            constructor
            · rw [tradesQty_append]; omega
            · dsimp only
              rw [tradesQty_append]; omega
  · intro book o hside hpos
    by_cases hv : o.quantity = 0 ∨ o.price ≤ 0
    · simp [hybridMatchOrder, if_pos hv, tradesQty]
    · by_cases hrange : book.fifoPct < 0 ∨ 1 < book.fifoPct
      · simp [hybridMatchOrder, if_neg hv, if_pos hrange, tradesQty]
      · have hle : book.fifoPct ≤ 1 :=
          le_of_not_lt fun hgt => hrange (Or.inr hgt)
        have hqF : hybridFifoQty book.fifoPct o.quantity ≤ o.quantity :=
          hybridFifoQty_le _ _ hle
        simp only [hybridMatchOrder, if_neg hv, if_neg hrange, hside]
        cases hbids : book.bids with
        | nil => simp [hybridMatchSell, tradesQty, hbids]
        | cons front tl =>
          have hpos' : ∀ x ∈ front :: tl, 0 < x.quantity := by
            rw [← hbids]; exact hpos
          simp only [hybridMatchSell, hbids]
          by_cases hcross : front.price < o.price
          · simp [if_pos hcross, tradesQty, hbids]
          · simp only [if_neg hcross]
            set qF := hybridFifoQty book.fifoPct o.quantity with hqFdef
            set f := matchLoop (fun bid q => ⟨bid.id, o.id, bid.price, q⟩)
              (fun p => decide (p = front.price)) qF (front :: tl) with hfdef
            set g := proRataExec (fun bid a => ⟨bid.id, o.id, bid.price, a⟩)
              (o.quantity - qF) front.price f.2.2 with hgdef
            have hf := matchLoop_conserve
              (fun bid q => ⟨bid.id, o.id, bid.price, q⟩)
              (fun p => decide (p = front.price)) (fun _ _ => rfl)
              (front :: tl) qF
            rw [← hfdef] at hf
            have hfp := matchLoop_pos
              (fun bid q => ⟨bid.id, o.id, bid.price, q⟩)
              (fun p => decide (p = front.price)) (front :: tl) qF hpos'
            rw [← hfdef] at hfp
            have hg := proRataExec_conserve
              (fun bid a => ⟨bid.id, o.id, bid.price, a⟩) (fun _ _ => rfl)
              (o.quantity - qF) front.price f.2.2 hfp
            rw [← hgdef] at hg
            obtain ⟨hf1, hf2, hf3⟩ := hf
            obtain ⟨hg1, hg2, hg3⟩ := hg
            constructor
            · rw [tradesQty_append]; omega
            · dsimp only
              rw [tradesQty_append]; omega

/-- Witness for C4: FIFO conjunct at S1 (Sell 1@100 q50 resting, Buy 2@100
q30 incoming). -/
theorem C4_witness :
    (⟨2, .buy, 100, 30⟩ : Order).side = Side.buy ∧
      (fifoMatchOrder ⟨[], [⟨1, .sell, 100, 50⟩]⟩ ⟨2, .buy, 100, 30⟩).1 =
        .ok [⟨2, 1, 100, 30⟩] ∧
      tradesQty [⟨2, 1, 100, 30⟩] ≤ (⟨2, .buy, 100, 30⟩ : Order).quantity ∧
      totalQty [⟨1, .sell, 100, 50⟩] =
        totalQty (fifoMatchOrder ⟨[], [⟨1, .sell, 100, 50⟩]⟩
          ⟨2, .buy, 100, 30⟩).2.asks + tradesQty [⟨2, 1, 100, 30⟩] := by
  refine ⟨rfl, by rfl, ?_⟩
  exact C4_conservation.1 ⟨[], [⟨1, .sell, 100, 50⟩]⟩ ⟨2, .buy, 100, 30⟩
    [⟨2, 1, 100, 30⟩] rfl (by rfl)

/-- Claim C9: FIFO consumes the opposite queue strictly from the front.  In
any single `match_order` call the opposite queue loses a front segment, each
of whose orders is fully consumed and removed — except possibly the last,
which remains at the head with a reduced positive quantity — and the trades
hit exactly those orders in queue order.  Since resting appends at the tail
and partial fills stay at the head, relative queue order equals insertion
order; hence across any sequence of submissions, of two resting orders at
the same price (indeed at any prices) the earlier-inserted one is fully
consumed before any unit of the later one. -/
theorem C9_fifo_time_priority (book : FifoBook) (o : Order) (ts : List Trade) :
    (o.side = .buy → (fifoMatchOrder book o).1 = .ok ts →
      ∃ n,
        ((fifoMatchOrder book o).2.asks = book.asks.drop n ∧
          ts.map Trade.sellId = (book.asks.take n).map Order.id) ∨
        (∃ x rest q', book.asks.drop n = x :: rest ∧ 0 < q' ∧
          q' < x.quantity ∧
          (fifoMatchOrder book o).2.asks =
            ({ x with quantity := q' } : Order) :: rest ∧
          ts.map Trade.sellId = (book.asks.take (n + 1)).map Order.id)) ∧
      (o.side = .sell → (fifoMatchOrder book o).1 = .ok ts →
        ∃ n,
          ((fifoMatchOrder book o).2.bids = book.bids.drop n ∧
            ts.map Trade.buyId = (book.bids.take n).map Order.id) ∨
          (∃ x rest q', book.bids.drop n = x :: rest ∧ 0 < q' ∧
            q' < x.quantity ∧
            (fifoMatchOrder book o).2.bids =
              ({ x with quantity := q' } : Order) :: rest ∧
            ts.map Trade.buyId = (book.bids.take (n + 1)).map Order.id)) := by
  constructor
  · intro hside hok
    by_cases hq : o.quantity = 0
    · rw [fifoMatchOrder] at hok
      simp [hq] at hok
    · by_cases hp : o.price ≤ 0
      · rw [fifoMatchOrder] at hok
        simp [hq, hp] at hok
      · have hs := matchLoop_front_consumption
          (fun ask q => ⟨o.id, ask.id, ask.price, q⟩)
          (fun p => decide (p ≤ o.price)) Trade.sellId (fun _ _ => rfl)
          book.asks o.quantity
        simp only [fifoMatchOrder, if_neg hq, if_neg hp, hside] at hok ⊢
        rw [Except.ok.injEq] at hok
        subst hok
        exact hs
  · intro hside hok
    by_cases hq : o.quantity = 0
    · rw [fifoMatchOrder] at hok
      simp [hq] at hok
    · by_cases hp : o.price ≤ 0
      · rw [fifoMatchOrder] at hok
        simp [hq, hp] at hok
      · have hs := matchLoop_front_consumption
          (fun bid q => ⟨bid.id, o.id, o.price, q⟩)
          (fun p => decide (o.price ≤ p)) Trade.buyId (fun _ _ => rfl)
          book.bids o.quantity
        simp only [fifoMatchOrder, if_neg hq, if_neg hp, hside] at hok ⊢
        rw [Except.ok.injEq] at hok
        subst hok
        exact hs

/-- Witness for C9 at scenario S2: three resting asks at 101, Buy(10,101,80)
fully consumes id=7 and id=8 and partially consumes id=9. -/
theorem C9_witness :
    (⟨10, .buy, 101, 80⟩ : Order).side = Side.buy ∧
      (fifoMatchOrder
          ⟨[], [⟨7, .sell, 101, 30⟩, ⟨8, .sell, 101, 40⟩, ⟨9, .sell, 101, 25⟩]⟩
          ⟨10, .buy, 101, 80⟩).1 =
        .ok [⟨10, 7, 101, 30⟩, ⟨10, 8, 101, 40⟩, ⟨10, 9, 101, 10⟩] ∧
      (∃ n,
        ((fifoMatchOrder
            ⟨[], [⟨7, .sell, 101, 30⟩, ⟨8, .sell, 101, 40⟩,
              ⟨9, .sell, 101, 25⟩]⟩ ⟨10, .buy, 101, 80⟩).2.asks =
            ([⟨7, .sell, 101, 30⟩, ⟨8, .sell, 101, 40⟩,
              ⟨9, .sell, 101, 25⟩] : List Order).drop n ∧
          ([⟨10, 7, 101, 30⟩, ⟨10, 8, 101, 40⟩,
            ⟨10, 9, 101, 10⟩] : List Trade).map Trade.sellId =
            (([⟨7, .sell, 101, 30⟩, ⟨8, .sell, 101, 40⟩,
              ⟨9, .sell, 101, 25⟩] : List Order).take n).map Order.id) ∨
        (∃ x rest q',
          ([⟨7, .sell, 101, 30⟩, ⟨8, .sell, 101, 40⟩,
            ⟨9, .sell, 101, 25⟩] : List Order).drop n = x :: rest ∧
          0 < q' ∧ q' < x.quantity ∧
          (fifoMatchOrder
              ⟨[], [⟨7, .sell, 101, 30⟩, ⟨8, .sell, 101, 40⟩,
                ⟨9, .sell, 101, 25⟩]⟩ ⟨10, .buy, 101, 80⟩).2.asks =
            ({ x with quantity := q' } : Order) :: rest ∧
          ([⟨10, 7, 101, 30⟩, ⟨10, 8, 101, 40⟩,
            ⟨10, 9, 101, 10⟩] : List Trade).map Trade.sellId =
            (([⟨7, .sell, 101, 30⟩, ⟨8, .sell, 101, 40⟩,
              ⟨9, .sell, 101, 25⟩] : List Order).take (n + 1)).map Order.id)) :=
  ⟨rfl, by rfl,
    (C9_fifo_time_priority
      ⟨[], [⟨7, .sell, 101, 30⟩, ⟨8, .sell, 101, 40⟩, ⟨9, .sell, 101, 25⟩]⟩
      ⟨10, .buy, 101, 80⟩
      [⟨10, 7, 101, 30⟩, ⟨10, 8, 101, 40⟩, ⟨10, 9, 101, 10⟩]).1 rfl (by rfl)⟩

/-- Claim C7: for a valid crossing submission to `HybridMatcher` with
`fifo_percentage ∈ [0,1]`, the returned list is exactly the FIFO-phase
trades followed by the pro-rata-phase trades; the FIFO phase trades at most
`⌊q_total · fifo_fraction⌋` units, the pro-rata phase at most the remaining
`q_total − ⌊q_total · fifo_fraction⌋` units, the total is at most `q_total`,
and every trade prints at the best opposite price captured before matching
began. -/
theorem C7_hybrid_phase_split :
    (∀ (book : HybridBook) (o : Order) (front : Order) (tl : List Order)
        (fRes : List Trade × Nat × List Order)
        (gRes : List Trade × Nat × List Order),
      o.side = .buy → o.quantity ≠ 0 → ¬o.price ≤ 0 →
      ¬(book.fifoPct < 0 ∨ 1 < book.fifoPct) →
      book.asks = front :: tl → ¬o.price < front.price →
      fRes = matchLoop (fun ask q => ⟨o.id, ask.id, ask.price, q⟩)
        (fun p => decide (p = front.price))
        (hybridFifoQty book.fifoPct o.quantity) book.asks →
      gRes = proRataExec (fun ask a => ⟨o.id, ask.id, ask.price, a⟩)
        (o.quantity - hybridFifoQty book.fifoPct o.quantity) front.price
        fRes.2.2 →
      (hybridMatchOrder book o).1 = fRes.1 ++ gRes.1 ∧
        tradesQty fRes.1 ≤ hybridFifoQty book.fifoPct o.quantity ∧
        tradesQty gRes.1 ≤
          o.quantity - hybridFifoQty book.fifoPct o.quantity ∧
        tradesQty (hybridMatchOrder book o).1 ≤ o.quantity ∧
        ∀ t ∈ (hybridMatchOrder book o).1, t.price = front.price) ∧
      (∀ (book : HybridBook) (o : Order) (front : Order) (tl : List Order)
          (fRes : List Trade × Nat × List Order)
          (gRes : List Trade × Nat × List Order),
        o.side = .sell → o.quantity ≠ 0 → ¬o.price ≤ 0 →
        ¬(book.fifoPct < 0 ∨ 1 < book.fifoPct) →
        book.bids = front :: tl → ¬front.price < o.price →
        fRes = matchLoop (fun bid q => ⟨bid.id, o.id, bid.price, q⟩)
          (fun p => decide (p = front.price))
          (hybridFifoQty book.fifoPct o.quantity) book.bids →
        gRes = proRataExec (fun bid a => ⟨bid.id, o.id, bid.price, a⟩)
          (o.quantity - hybridFifoQty book.fifoPct o.quantity) front.price
          fRes.2.2 →
        (hybridMatchOrder book o).1 = fRes.1 ++ gRes.1 ∧
          tradesQty fRes.1 ≤ hybridFifoQty book.fifoPct o.quantity ∧
          tradesQty gRes.1 ≤
            o.quantity - hybridFifoQty book.fifoPct o.quantity ∧
          tradesQty (hybridMatchOrder book o).1 ≤ o.quantity ∧
          ∀ t ∈ (hybridMatchOrder book o).1, t.price = front.price) := by
  constructor
  · intro book o front tl fRes gRes hside hq hp hrange hasks hcross hfdef hgdef
    have hv : ¬(o.quantity = 0 ∨ o.price ≤ 0) := by tauto
    have hle : book.fifoPct ≤ 1 :=
      le_of_not_lt fun hgt => hrange (Or.inr hgt)
    have hqF : hybridFifoQty book.fifoPct o.quantity ≤ o.quantity :=
      hybridFifoQty_le _ _ hle
    subst hfdef
    subst hgdef
    have htrades : (hybridMatchOrder book o).1 =
        (matchLoop (fun ask q => ⟨o.id, ask.id, ask.price, q⟩)
          (fun p => decide (p = front.price))
          (hybridFifoQty book.fifoPct o.quantity) book.asks).1 ++
        (proRataExec (fun ask a => ⟨o.id, ask.id, ask.price, a⟩)
          (o.quantity - hybridFifoQty book.fifoPct o.quantity) front.price
          (matchLoop (fun ask q => ⟨o.id, ask.id, ask.price, q⟩)
            (fun p => decide (p = front.price))
            (hybridFifoQty book.fifoPct o.quantity) book.asks).2.2).1 := by
      simp only [hybridMatchOrder, if_neg hv, if_neg hrange, hside,
        hybridMatchBuy, hasks, if_neg hcross]
    obtain ⟨hf1, hf2, hf3⟩ := matchLoop_conserve
      (fun ask q => ⟨o.id, ask.id, ask.price, q⟩)
      (fun p => decide (p = front.price)) (fun _ _ => rfl) book.asks
      (hybridFifoQty book.fifoPct o.quantity)
    have hgle := proRataExec_trades_le
      (fun ask a => ⟨o.id, ask.id, ask.price, a⟩) (fun _ _ => rfl)
      (o.quantity - hybridFifoQty book.fifoPct o.quantity) front.price
      (matchLoop (fun ask q => ⟨o.id, ask.id, ask.price, q⟩)
        (fun p => decide (p = front.price))
        (hybridFifoQty book.fifoPct o.quantity) book.asks).2.2
    refine ⟨htrades, by omega, hgle, ?_, ?_⟩
    · rw [htrades, tradesQty_append]
      omega
    · intro t ht
      rw [htrades] at ht
      rcases List.mem_append.1 ht with h | h
      · have := matchLoop_price (fun ask q => ⟨o.id, ask.id, ask.price, q⟩)
          (fun p => decide (p = front.price)) (fun _ _ => rfl) book.asks
          (hybridFifoQty book.fifoPct o.quantity) t h
        exact of_decide_eq_true this
      · exact proRataExec_price _ (fun _ _ => rfl) _ _ _ t h
  · intro book o front tl fRes gRes hside hq hp hrange hbids hcross hfdef hgdef
    have hv : ¬(o.quantity = 0 ∨ o.price ≤ 0) := by tauto
    have hle : book.fifoPct ≤ 1 :=
      le_of_not_lt fun hgt => hrange (Or.inr hgt)
    have hqF : hybridFifoQty book.fifoPct o.quantity ≤ o.quantity :=
      hybridFifoQty_le _ _ hle
    subst hfdef
    subst hgdef
    have htrades : (hybridMatchOrder book o).1 =
        (matchLoop (fun bid q => ⟨bid.id, o.id, bid.price, q⟩)
          (fun p => decide (p = front.price))
          (hybridFifoQty book.fifoPct o.quantity) book.bids).1 ++
        (proRataExec (fun bid a => ⟨bid.id, o.id, bid.price, a⟩)
          (o.quantity - hybridFifoQty book.fifoPct o.quantity) front.price
          (matchLoop (fun bid q => ⟨bid.id, o.id, bid.price, q⟩)
            (fun p => decide (p = front.price))
            (hybridFifoQty book.fifoPct o.quantity) book.bids).2.2).1 := by
      simp only [hybridMatchOrder, if_neg hv, if_neg hrange, hside,
        hybridMatchSell, hbids, if_neg hcross]
    obtain ⟨hf1, hf2, hf3⟩ := matchLoop_conserve
      (fun bid q => ⟨bid.id, o.id, bid.price, q⟩)
      (fun p => decide (p = front.price)) (fun _ _ => rfl) book.bids
      (hybridFifoQty book.fifoPct o.quantity)
    have hgle := proRataExec_trades_le
      (fun bid a => ⟨bid.id, o.id, bid.price, a⟩) (fun _ _ => rfl)
      (o.quantity - hybridFifoQty book.fifoPct o.quantity) front.price
      (matchLoop (fun bid q => ⟨bid.id, o.id, bid.price, q⟩)
        (fun p => decide (p = front.price))
        (hybridFifoQty book.fifoPct o.quantity) book.bids).2.2
    refine ⟨htrades, by omega, hgle, ?_, ?_⟩
    · rw [htrades, tradesQty_append]
      omega
    · intro t ht
      rw [htrades] at ht
      rcases List.mem_append.1 ht with h | h
      · have := matchLoop_price (fun bid q => ⟨bid.id, o.id, bid.price, q⟩)
          (fun p => decide (p = front.price)) (fun _ _ => rfl) book.bids
          (hybridFifoQty book.fifoPct o.quantity) t h
        exact of_decide_eq_true this
      · exact proRataExec_price _ (fun _ _ => rfl) _ _ _ t h

/-- Witness for C7: fifo_percentage = 1, one resting ask 14@75 q40,
incoming Buy 17@75 q50. -/
theorem C7_witness :
    ((⟨17, .buy, 75, 50⟩ : Order).side = Side.buy ∧
        (⟨17, .buy, 75, 50⟩ : Order).quantity ≠ 0 ∧
        ¬(⟨17, .buy, 75, 50⟩ : Order).price ≤ 0 ∧
        ¬((⟨[], [⟨14, .sell, 75, 40⟩], 1⟩ : HybridBook).fifoPct < 0 ∨
          1 < (⟨[], [⟨14, .sell, 75, 40⟩], 1⟩ : HybridBook).fifoPct) ∧
        ¬(⟨17, .buy, 75, 50⟩ : Order).price <
          (⟨14, .sell, 75, 40⟩ : Order).price) ∧
      ((hybridMatchOrder ⟨[], [⟨14, .sell, 75, 40⟩], 1⟩
            ⟨17, .buy, 75, 50⟩).1 =
          (matchLoop
            (fun ask q => ⟨(⟨17, .buy, 75, 50⟩ : Order).id, ask.id,
              ask.price, q⟩)
            (fun p => decide (p = (⟨14, .sell, 75, 40⟩ : Order).price))
            (hybridFifoQty (⟨[], [⟨14, .sell, 75, 40⟩], 1⟩ :
                HybridBook).fifoPct
              (⟨17, .buy, 75, 50⟩ : Order).quantity)
            (⟨[], [⟨14, .sell, 75, 40⟩], 1⟩ : HybridBook).asks).1 ++
          (proRataExec
            (fun ask a => ⟨(⟨17, .buy, 75, 50⟩ : Order).id, ask.id,
              ask.price, a⟩)
            ((⟨17, .buy, 75, 50⟩ : Order).quantity -
              hybridFifoQty (⟨[], [⟨14, .sell, 75, 40⟩], 1⟩ :
                  HybridBook).fifoPct
                (⟨17, .buy, 75, 50⟩ : Order).quantity)
            (⟨14, .sell, 75, 40⟩ : Order).price
            (matchLoop
              (fun ask q => ⟨(⟨17, .buy, 75, 50⟩ : Order).id, ask.id,
                ask.price, q⟩)
              (fun p => decide (p = (⟨14, .sell, 75, 40⟩ : Order).price))
              (hybridFifoQty (⟨[], [⟨14, .sell, 75, 40⟩], 1⟩ :
                  HybridBook).fifoPct
                (⟨17, .buy, 75, 50⟩ : Order).quantity)
              (⟨[], [⟨14, .sell, 75, 40⟩], 1⟩ : HybridBook).asks).2.2).1 ∧
        tradesQty (hybridMatchOrder ⟨[], [⟨14, .sell, 75, 40⟩], 1⟩
            ⟨17, .buy, 75, 50⟩).1 ≤ (⟨17, .buy, 75, 50⟩ : Order).quantity ∧
        ∀ t ∈ (hybridMatchOrder ⟨[], [⟨14, .sell, 75, 40⟩], 1⟩
            ⟨17, .buy, 75, 50⟩).1,
          t.price = (⟨14, .sell, 75, 40⟩ : Order).price) := by
  have h := C7_hybrid_phase_split.1 ⟨[], [⟨14, .sell, 75, 40⟩], 1⟩
    ⟨17, .buy, 75, 50⟩ ⟨14, .sell, 75, 40⟩ [] _ _ rfl (by decide)
    (by decide) (by decide) rfl (by decide) rfl rfl
  exact ⟨⟨rfl, by decide, by decide, by decide, by decide⟩,
    h.1, h.2.2.2.1, h.2.2.2.2⟩

/-- Claim C8: on a crossing submission `ProRataMatcher` consumes only the
best-price level: every trade prints at the front price and hits an order of
the collected level; and when the aggressor exceeds the level's total, the
whole level is removed, the queue beyond the level is untouched
(`drop level.length`), and the overflow is appended to the tail of the
aggressor's own side — it does not match the next price level. -/
theorem C8_prorata_best_level_only :
    (∀ (book : ProRataBook) (o : Order) (front : Order) (tl : List Order),
      o.side = .buy → o.quantity ≠ 0 → ¬o.price ≤ 0 →
      book.asks = front :: tl → ¬o.price < front.price →
      (∀ t ∈ (proRataMatchOrder book o).1,
        t.price = front.price ∧
          t.sellId ∈ (collectLevel front.price book.asks).map Order.id) ∧
        ((∀ x ∈ book.asks, 0 < x.quantity) →
          totalQty (collectLevel front.price book.asks) < o.quantity →
          (proRataMatchOrder book o).2.asks =
              book.asks.drop (collectLevel front.price book.asks).length ∧
            (proRataMatchOrder book o).2.bids =
              book.bids ++ [{ o with quantity := (o.quantity -
                totalQty (collectLevel front.price book.asks)) }])) ∧
      (∀ (book : ProRataBook) (o : Order) (front : Order) (tl : List Order),
        o.side = .sell → o.quantity ≠ 0 → ¬o.price ≤ 0 →
        book.bids = front :: tl → ¬front.price < o.price →
        (∀ t ∈ (proRataMatchOrder book o).1,
          t.price = front.price ∧
            t.buyId ∈ (collectLevel front.price book.bids).map Order.id) ∧
          ((∀ x ∈ book.bids, 0 < x.quantity) →
            totalQty (collectLevel front.price book.bids) < o.quantity →
            (proRataMatchOrder book o).2.bids =
                book.bids.drop (collectLevel front.price book.bids).length ∧
              (proRataMatchOrder book o).2.asks =
                book.asks ++ [{ o with quantity := (o.quantity -
                  totalQty (collectLevel front.price book.bids)) }])) := by
  constructor
  · intro book o front tl hside hq hp hasks hcross
    have hv : ¬(o.quantity = 0 ∨ o.price ≤ 0) := by tauto
    constructor
    · intro t ht
      simp only [proRataMatchOrder, if_neg hv, hside, proRataMatchBuy, hasks,
        if_neg hcross] at ht
      refine ⟨proRataExec_price _ (fun _ _ => rfl) _ _ _ t ht, ?_⟩
      obtain ⟨x, hx, a, ha, rfl⟩ := proRataExec_mem _ _ _ _ t ht
      rw [hasks]
      exact List.mem_map_of_mem Order.id hx
    · intro hpos hover
      rw [hasks] at hover hpos
      have hfront : front ∈ collectLevel front.price (front :: tl) := by
        simp [collectLevel, List.takeWhile_cons]
      have hfq : 0 < front.quantity := hpos front (List.mem_cons_self _ _)
      have hTne : totalQty (collectLevel front.price (front :: tl)) ≠ 0 := by
        have hle : front.quantity ≤
            ((collectLevel front.price (front :: tl)).map Order.quantity).sum :=
          List.single_le_sum (fun _ _ => Nat.zero_le _) _
            (List.mem_map_of_mem Order.quantity hfront)
        have h : totalQty (collectLevel front.price (front :: tl)) =
            ((collectLevel front.price (front :: tl)).map Order.quantity).sum :=
          rfl
        omega
      obtain ⟨hdrop, hrem⟩ := proRataExec_full
        (fun ask a => ⟨o.id, ask.id, ask.price, a⟩) o.quantity front.price
        (front :: tl) hpos (le_of_lt hover) hTne
      constructor
      · simp only [proRataMatchOrder, if_neg hv, hside, proRataMatchBuy,
          hasks, if_neg hcross]
        exact hdrop
      · simp only [proRataMatchOrder, if_neg hv, hside, proRataMatchBuy,
          hasks, if_neg hcross]
        rw [hrem, if_pos (by omega)]
  · intro book o front tl hside hq hp hbids hcross
    have hv : ¬(o.quantity = 0 ∨ o.price ≤ 0) := by tauto
    constructor
    · intro t ht
      simp only [proRataMatchOrder, if_neg hv, hside, proRataMatchSell,
        hbids, if_neg hcross] at ht
      refine ⟨proRataExec_price _ (fun _ _ => rfl) _ _ _ t ht, ?_⟩
      obtain ⟨x, hx, a, ha, rfl⟩ := proRataExec_mem _ _ _ _ t ht
      rw [hbids]
      exact List.mem_map_of_mem Order.id hx
    · intro hpos hover
      rw [hbids] at hover hpos
      have hfront : front ∈ collectLevel front.price (front :: tl) := by
        simp [collectLevel, List.takeWhile_cons]
      have hfq : 0 < front.quantity := hpos front (List.mem_cons_self _ _)
      have hTne : totalQty (collectLevel front.price (front :: tl)) ≠ 0 := by
        have hle : front.quantity ≤
            ((collectLevel front.price (front :: tl)).map
              Order.quantity).sum :=
          List.single_le_sum (fun _ _ => Nat.zero_le _) _
            (List.mem_map_of_mem Order.quantity hfront)
        have h : totalQty (collectLevel front.price (front :: tl)) =
            ((collectLevel front.price (front :: tl)).map
              Order.quantity).sum := rfl
        omega
      obtain ⟨hdrop, hrem⟩ := proRataExec_full
        (fun bid a => ⟨bid.id, o.id, bid.price, a⟩) o.quantity front.price
        (front :: tl) hpos (le_of_lt hover) hTne
      constructor
      · simp only [proRataMatchOrder, if_neg hv, hside, proRataMatchSell,
          hbids, if_neg hcross]
        exact hdrop
      · simp only [proRataMatchOrder, if_neg hv, hside, proRataMatchSell,
          hbids, if_neg hcross]
        rw [hrem, if_pos (by omega)]

/-- Witness for C8: S3 book with an oversized Buy(13, p=50, q=300); the
whole 200-lot level is consumed and the 100-lot overflow rests. -/
theorem C8_witness :
    ((⟨13, .buy, 50, 300⟩ : Order).side = Side.buy ∧
        (⟨13, .buy, 50, 300⟩ : Order).quantity ≠ 0 ∧
        ¬(⟨13, .buy, 50, 300⟩ : Order).price ≤ 0 ∧
        ¬(⟨13, .buy, 50, 300⟩ : Order).price <
          (⟨11, .sell, 50, 50⟩ : Order).price ∧
        (∀ x ∈ (⟨[], [⟨11, .sell, 50, 50⟩, ⟨12, .sell, 50, 150⟩]⟩ :
            ProRataBook).asks, 0 < x.quantity) ∧
        totalQty (collectLevel (⟨11, .sell, 50, 50⟩ : Order).price
            (⟨[], [⟨11, .sell, 50, 50⟩, ⟨12, .sell, 50, 150⟩]⟩ :
              ProRataBook).asks) <
          (⟨13, .buy, 50, 300⟩ : Order).quantity) ∧
      ((∀ t ∈ (proRataMatchOrder
            ⟨[], [⟨11, .sell, 50, 50⟩, ⟨12, .sell, 50, 150⟩]⟩
            ⟨13, .buy, 50, 300⟩).1,
          t.price = (⟨11, .sell, 50, 50⟩ : Order).price ∧
            t.sellId ∈ (collectLevel (⟨11, .sell, 50, 50⟩ : Order).price
              (⟨[], [⟨11, .sell, 50, 50⟩, ⟨12, .sell, 50, 150⟩]⟩ :
                ProRataBook).asks).map Order.id) ∧
        (proRataMatchOrder ⟨[], [⟨11, .sell, 50, 50⟩, ⟨12, .sell, 50, 150⟩]⟩
              ⟨13, .buy, 50, 300⟩).2.asks =
            (⟨[], [⟨11, .sell, 50, 50⟩, ⟨12, .sell, 50, 150⟩]⟩ :
              ProRataBook).asks.drop
              (collectLevel (⟨11, .sell, 50, 50⟩ : Order).price
                (⟨[], [⟨11, .sell, 50, 50⟩, ⟨12, .sell, 50, 150⟩]⟩ :
                  ProRataBook).asks).length ∧
          (proRataMatchOrder ⟨[], [⟨11, .sell, 50, 50⟩, ⟨12, .sell, 50, 150⟩]⟩
              ⟨13, .buy, 50, 300⟩).2.bids =
            (⟨[], [⟨11, .sell, 50, 50⟩, ⟨12, .sell, 50, 150⟩]⟩ :
                ProRataBook).bids ++
              [{ (⟨13, .buy, 50, 300⟩ : Order) with quantity :=
                ((⟨13, .buy, 50, 300⟩ : Order).quantity -
                  totalQty (collectLevel (⟨11, .sell, 50, 50⟩ : Order).price
                    (⟨[], [⟨11, .sell, 50, 50⟩, ⟨12, .sell, 50, 150⟩]⟩ :
                      ProRataBook).asks)) }]) := by
  have h := C8_prorata_best_level_only.1
    ⟨[], [⟨11, .sell, 50, 50⟩, ⟨12, .sell, 50, 150⟩]⟩ ⟨13, .buy, 50, 300⟩
    ⟨11, .sell, 50, 50⟩ [⟨12, .sell, 50, 150⟩] rfl (by decide) (by decide)
    rfl (by decide)
  exact ⟨⟨rfl, by decide, by decide, by decide, by decide, by decide⟩,
    h.1, h.2 (by decide) (by decide)⟩

section SanityChecks

-- S1 sanity: Sell(1,100,50) then Buy(2,100,30) on FIFO
example :
    (fifoMatchOrder (fifoRun [⟨1, .sell, 100, 50⟩]) ⟨2, .buy, 100, 30⟩).1 =
      .ok [⟨2, 1, 100, 30⟩] := by rfl

example :
    (fifoMatchOrder (fifoRun [⟨1, .sell, 100, 50⟩]) ⟨2, .buy, 100, 30⟩).2 =
      ⟨[], [⟨1, .sell, 100, 20⟩]⟩ := by decide

-- S3 sanity: Asks (11,50),(12,150)@50, Buy(13,50,100): allocations 25/75,
-- trades in reverse collection order
example :
    (proRataMatchOrder ⟨[], [⟨11, .sell, 50, 50⟩, ⟨12, .sell, 50, 150⟩]⟩
        ⟨13, .buy, 50, 100⟩).1 =
      [⟨13, 12, 50, 75⟩, ⟨13, 11, 50, 25⟩] := by
  simp [proRataMatchOrder, proRataMatchBuy, proRataExec, proRataAllocs,
    collectLevel, totalQty, allocInit_eq_div, distributeRemainder,
    levelTrades, applyAllocs]
  decide

-- S4 sanity: remainder distribution (10,10,10)@10, Buy q=11 → (4,4,3)
example : proRataAllocs 11 [10, 10, 10] = [4, 4, 3] := by
  simp [proRataAllocs, allocInit_eq_div, distributeRemainder]

theorem hybridFifoQty_one (q : Nat) : hybridFifoQty 1 q = q := by
  simp [hybridFifoQty]

theorem hybridFifoQty_zero (q : Nat) : hybridFifoQty 0 q = 0 := by
  simp [hybridFifoQty]

-- Hybrid sanity, pure FIFO phase (pct = 1): Buy 17@75 q50 against asks
-- 14@75 q40, 15@75 q60 consumes 40 from 14 then 10 from 15 in time order
example :
    (hybridMatchOrder ⟨[], [⟨14, .sell, 75, 40⟩, ⟨15, .sell, 75, 60⟩], 1⟩
        ⟨17, .buy, 75, 50⟩).1 = [⟨17, 14, 75, 40⟩, ⟨17, 15, 75, 10⟩] := by
  simp [hybridMatchOrder, hybridMatchBuy, hybridFifoQty_one, matchLoop,
    proRataExec, collectLevel, totalQty, proRataAllocs, allocInit_eq_div,
    distributeRemainder, levelTrades, applyAllocs]
  decide

-- Hybrid sanity, pure pro-rata phase (pct = 0): allocations 20/30, trades
-- in reverse collection order
example :
    (hybridMatchOrder ⟨[], [⟨14, .sell, 75, 40⟩, ⟨15, .sell, 75, 60⟩], 0⟩
        ⟨17, .buy, 75, 50⟩).1 = [⟨17, 15, 75, 30⟩, ⟨17, 14, 75, 20⟩] := by
  simp [hybridMatchOrder, hybridMatchBuy, hybridFifoQty_zero, matchLoop,
    proRataExec, collectLevel, totalQty, proRataAllocs, allocInit_eq_div,
    distributeRemainder, levelTrades, applyAllocs]
  decide

end SanityChecks

end OME
